import Mathlib

/-!
Verification of the natural-language specification of
`licenses/utils.py` (URL and filename parsing helpers of a
license-metadata application) against a shallow embedding of the code.

Python strings are embedded as `List Char` (named `Str`); fallible code
returns `Option` or `Except`, where `none` / `.error` marks a raised
exception.  Every definition below is translated from the Python source;
doc comments name the Python function or expression being modelled.
-/

set_option maxRecDepth 10000

/-- Python strings are modelled as lists of characters. -/
abbrev Str := List Char

/-- Shorthand turning a Lean string literal into the `List Char` embedding. -/
def S (x : String) : Str := x.data

/-- Python `l.startswith(p)`: does `l` start with `p`? -/
def strStarts : Str → Str → Bool
  | _, [] => true
  | [], _ :: _ => false
  | c :: l, d :: p => c == d && strStarts l p

/-- Python `l.endswith(p)`: does `l` end with `p`? -/
def strEnds (l p : Str) : Bool := strStarts l.reverse p.reverse

/-- Python `p in l`: does `p` occur as a contiguous substring of `l`? -/
def hasSub : Str → Str → Bool
  | [], p => strStarts [] p
  | c :: t, p => strStarts (c :: t) p || hasSub t p

/-- Python `l.split(c)` for a single-character separator: always returns at
least one piece, empty pieces included. -/
def splitC (c : Char) : Str → List Str
  | [] => [[]]
  | x :: xs =>
    if x = c then [] :: splitC c xs
    else
      match splitC c xs with
      | [] => [[x]]
      | h :: t => (x :: h) :: t

/-- Python `l.strip(c)` for a single strip character: removes every leading
and trailing occurrence of `c`. -/
def stripC (c : Char) (l : Str) : Str :=
  ((l.dropWhile (· == c)).reverse.dropWhile (· == c)).reverse

/-- Python `posixpath.join(a, b)` for two arguments: an absolute second
component discards the first; otherwise a slash is inserted unless the
first component is empty or already ends with a slash. -/
def pjoin (a b : Str) : Str :=
  if strStarts b (S "/") = true then b
  else if a = [] ∨ strEnds a (S "/") = true then a ++ b
  else a ++ '/' :: b

/-! ### A model of Python `float(...)` on version tokens

`parse_legalcode_filename` evaluates `float(version) < 4.0`.  The model
parses the decimal grammar `[sign] (digits [. digits] | . digits)
[(e|E) [sign] digits]` as an exact rational, plus the special tokens
`inf`, `infinity` and `nan` (case-insensitive), after stripping ASCII
whitespace; an unparsable token yields `none`, matching the `ValueError`
raised by `float`.  The version tokens come from splitting on an
underscore, so the numeric-underscore feature of Python literals cannot
arise here.  The comparison with `4.0` is exact on this grammar except
for decimals within half an ulp of 4.0, which do not occur in version
numbers. -/

/-- Python float values reachable from `float(token)`. -/
inductive PyFloat where
  | finite : Rat → PyFloat
  | inf : Bool → PyFloat
  | nan : PyFloat
deriving DecidableEq

/-- ASCII whitespace stripped by Python `float`. -/
def pyWs (c : Char) : Bool :=
  c == ' ' || c == '\t' || c == '\n' || c == '\r' || c == '\x0c' || c == '\x0b'

/-- Strip leading and trailing whitespace. -/
def stripWs (l : Str) : Str :=
  ((l.dropWhile pyWs).reverse.dropWhile pyWs).reverse

/-- Value of a nonempty all-digit string. -/
def digitsVal? (l : Str) : Option Nat :=
  if l = [] then none
  else if l.all Char.isDigit then
    some (l.foldl (fun a c => a * 10 + (c.toNat - 48)) 0)
  else none

/-- Split a string at the first occurrence of a character satisfying `p`,
returning the pieces before and after it together with the character. -/
def splitFirst? (p : Char → Bool) : Str → Option (Str × Char × Str)
  | [] => none
  | c :: t =>
    if p c then some ([], c, t)
    else (splitFirst? p t).map (fun x => (c :: x.1, x.2.1, x.2.2))

/-- Mantissa of a float literal: numerator and number of fractional digits. -/
def mantissa? (l : Str) : Option (Nat × Nat) :=
  match splitFirst? (· == '.') l with
  | none => (digitsVal? l).map (fun v => (v, 0))
  | some (ip, _, fp) =>
    if ip = [] then (digitsVal? fp).map (fun v => (v, fp.length))
    else
      match digitsVal? ip with
      | none => none
      | some iv =>
        if fp = [] then some (iv, 0)
        else (digitsVal? fp).map (fun fv => (iv * 10 ^ fp.length + fv, fp.length))

/-- Signed integer exponent of a float literal. -/
def intVal? (l : Str) : Option Int :=
  match l with
  | c :: t =>
    if c = '+' then (digitsVal? t).map (fun v => (v : Int))
    else if c = '-' then (digitsVal? t).map (fun v => -(v : Int))
    else (digitsVal? l).map (fun v => (v : Int))
  | [] => none

/-- Exact rational value of a parsed decimal literal
`[sign] n * 10^(-fl) * 10^e`. -/
def ratOf (neg : Bool) (n fl : Nat) (e : Int) : Rat :=
  mkRat ((if neg then -(n : Int) else (n : Int)) * (10 : Int) ^ e.toNat)
    (10 ^ (fl + (-e).toNat))

/-- Body of the `float` model after the optional sign: the special
tokens `inf`, `infinity` and `nan` (case-insensitive) or the decimal
grammar with an optional exponent. -/
def pyFloatBody (neg : Bool) (v : Str) : Option PyFloat :=
  if v.map Char.toLower = S "inf" ∨ v.map Char.toLower = S "infinity" then
    some (.inf neg)
  else if v.map Char.toLower = S "nan" then some .nan
  else
    match splitFirst? (fun c => c == 'e' || c == 'E') v with
    | none => (mantissa? v).map (fun x => .finite (ratOf neg x.1 x.2 0))
    | some (m, _, ex) =>
      match mantissa? m with
      | none => none
      | some x =>
        match intVal? ex with
        | none => none
        | some e => some (.finite (ratOf neg x.1 x.2 e))

/-- Core of the `float` model, after whitespace stripping: an optional
leading sign followed by the body. -/
def pyFloatCore (u : Str) : Option PyFloat :=
  match u with
  | c :: t =>
    if c = '+' then pyFloatBody false t
    else if c = '-' then pyFloatBody true t
    else pyFloatBody false u
  | [] => pyFloatBody false []

/-- Python `float(t)`, returning `none` where `float` raises `ValueError`. -/
def pyFloat? (t : Str) : Option PyFloat :=
  pyFloatCore (stripWs t)

/-- Python `float(version) < 4.0` on the parsed value. -/
def pyFloatLtFour : PyFloat → Bool
  | .finite q => q < 4
  | .inf neg => neg
  | .nan => false

/-! ### The functions of `licenses/utils.py` -/

/-- Python `compute_about_url(license_code, version, jurisdiction_code)`:
the canonical language-independent "about" URL of a license. -/
def compute_about_url (license_code version jurisdiction_code : Str) : Str :=
  let base := S "http://creativecommons.org"
  if license_code = S "BSD" ∨ license_code = S "MIT" then
    base ++ S "/licenses/" ++ license_code ++ S "/"
  else if hasSub license_code (S "GPL") = true then
    base ++ S "/licenses/" ++ license_code ++ S "/" ++ version ++ S "/"
  else
    let pfx :=
      if license_code = S "CC0" ∨ license_code = S "zero" ∨ license_code = S "mark"
      then S "publicdomain" else S "licenses"
    let mostly :=
      base ++ S "/" ++ pfx ++ S "/" ++ license_code ++ S "/" ++ version ++ S "/"
    if jurisdiction_code = [] then mostly
    else mostly ++ jurisdiction_code ++ S "/"

/-- The record returned by `parse_legalcode_filename`. -/
structure LicenseData where
  license_code : Str
  version : Str
  jurisdiction_code : Str
  language_code : Str
  url : Str
  about_url : Str
deriving DecidableEq

/-- The `samplingplus` / `nc-samplingplus` token remapping at the top of
`parse_legalcode_filename`. -/
def remapLicense (l : Str) : Str :=
  if l = S "samplingplus" then S "sampling+"
  else if l = S "nc-samplingplus" then S "nc-sampling+"
  else l

/-- The `basename` computation of `parse_legalcode_filename`: a trailing
`.html` is cut off. -/
def stripHtml (f : Str) : Str :=
  if strEnds f (S ".html") = true then f.take (f.length - 5) else f

/-- URL assembly of `parse_legalcode_filename`: successive
`posixpath.join` calls for the path base, the license token, the version,
a truthy jurisdiction, and either a `legalcode.<language>` leaf for a
truthy language or a trailing slash. -/
def legalcodeUrl (pathBase lcu ver : Str) (jurisdiction language : Option Str) : Str :=
  let url2 := pjoin (pjoin (pjoin (S "http://creativecommons.org") pathBase) lcu) ver
  let url3 :=
    match jurisdiction with
    | some j => if j = [] then url2 else pjoin url2 j
    | none => url2
  match language with
  | some l => if l = [] then url3 ++ ['/'] else pjoin url3 (S "legalcode." ++ l)
  | none => url3 ++ ['/']

/-- Tail of `parse_legalcode_filename` after the branching on the license
token: pops the language, assembles the legal-code URL, and builds the
returned record.  `jurisdiction` is `none` when the jurisdiction token
was never popped; `parts` is the list of tokens still unconsumed when
the language pop happens. -/
def mkLicenseData (licenseCodeToReturn pathBase licenseCodeForUrl ver : Str)
    (jurisdiction : Option Str) (parts : List Str) : LicenseData :=
  { license_code := licenseCodeToReturn
    version := ver
    jurisdiction_code := jurisdiction.getD []
    language_code := (parts.head?).getD []
    url := legalcodeUrl pathBase licenseCodeForUrl ver jurisdiction parts.head?
    about_url := compute_about_url licenseCodeForUrl ver (jurisdiction.getD []) }

/-- Python `parse_legalcode_filename(filename)`.  Returns `none` where the
Python code raises: an `IndexError` when the version pop finds no token,
and the `ValueError` of `float(version)` when tokens remain after the
version and the version token is not a valid float (the conjunction
`parts and float(version) < 4.0` short-circuits, so `float` only runs
when tokens remain, and only outside the `zero` branch). -/
def parse_legalcode_filename (filename : Str) : Option LicenseData :=
  match splitC '_' (stripHtml filename) with
  | [] => none
  | [_] => none
  | lic0 :: ver :: rest =>
    if strStarts (remapLicense lic0) (S "zero") = true then
      some (mkLicenseData (S "CC0") (S "publicdomain") (remapLicense lic0) ver none rest)
    else
      match rest with
      | [] =>
        some (mkLicenseData (remapLicense lic0) (S "licenses") (remapLicense lic0) ver none [])
      | j :: rest' =>
        match pyFloat? ver with
        | none => none
        | some v =>
          if pyFloatLtFour v = true then
            some (mkLicenseData (remapLicense lic0) (S "licenses") (remapLicense lic0) ver
              (some j) rest')
          else
            some (mkLicenseData (remapLicense lic0) (S "licenses") (remapLicense lic0) ver
              none (j :: rest'))

/-! ### `get_license_url_from_legalcode_url`

The Python code matches `re.compile(r"^(.*)legalcode(\.%s)?" %
LANGUAGE_CODE_REGEX)` with `regex.match`, anchored at the start of the
string only.  In that regex `(.*)` is greedy and `.` does not match a
newline, and the optional second group can always match empty, so the
match succeeds exactly when some occurrence of `"legalcode"` is preceded
by a newline-free prefix, and group 1 is the longest such prefix.
`largestLE cond n` returns the largest `i ≤ n` satisfying `cond`,
mirroring the greedy choice. -/

/-- The pattern constant. -/
def legalcodeChars : Str := S "legalcode"

/-- Candidate test for a match of the regex at offset `i`: `"legalcode"`
occurs at `i` and the prefix before it (matched by `(.*)`) has no newline. -/
def matchCond (u : Str) (i : Nat) : Bool :=
  strStarts (u.drop i) legalcodeChars && !((u.take i).contains '\n')

/-- Largest index up to `n` satisfying `cond`, if any. -/
def largestLE (cond : Nat → Bool) : Nat → Option Nat
  | 0 => if cond 0 then some 0 else none
  | n + 1 => if cond (n + 1) then some (n + 1) else largestLE cond n

/-- Group 1 of the regex match, `none` when the regex does not match. -/
def reGroupOne (u : Str) : Option Str :=
  (largestLE (matchCond u) u.length).map (fun i => u.take i)

instance : DecidableEq (Except Str Str) := fun a b =>
  match a, b with
  | .ok x, .ok y =>
    if h : x = y then isTrue (by rw [h]) else isFalse (fun hc => h (by cases hc; rfl))
  | .ok _, .error _ => isFalse (fun hc => Except.noConfusion hc)
  | .error _, .ok _ => isFalse (fun hc => Except.noConfusion hc)
  | .error x, .error y =>
    if h : x = y then isTrue (by rw [h]) else isFalse (fun hc => h (by cases hc; rfl))

/-- Python `get_license_url_from_legalcode_url(legalcode_url)`; `.error`
carries the message of the raised `ValueError`. -/
def get_license_url_from_legalcode_url (u : Str) : Except Str Str :=
  if u = S "http://opensource.org/licenses/bsd-license.php" then
    .ok (S "http://creativecommons.org/licenses/BSD/")
  else if u = S "http://opensource.org/licenses/mit-license.php" then
    .ok (S "http://creativecommons.org/licenses/MIT/")
  else
    match reGroupOne u with
    | some p => .ok p
    | none => .error (S "regex did not match " ++ u)

/-! ### `get_code_from_jurisdiction_url` and its `urlsplit` model

`urllib.parse.urlsplit(url).path` is modelled after CPython: tab,
carriage-return and newline characters are removed, a well-formed
`scheme:` prefix is dropped, a `//netloc` part is dropped up to the next
`/`, `?` or `#`, and the fragment and query are cut off.  (The bracket
validation of IPv6 netlocs is not modelled; no claim depends on it.) -/

/-- CPython removes these characters from the URL before splitting. -/
def scrubUrl (u : Str) : Str :=
  u.filter (fun c => !(c == '\t' || c == '\r' || c == '\n'))

/-- Characters allowed in a URL scheme. -/
def schemeChar (c : Char) : Bool :=
  c.isAlpha || c.isDigit || c == '+' || c == '-' || c == '.'

/-- Drop a well-formed `scheme:` prefix, as CPython does. -/
def dropScheme (u : Str) : Str :=
  match List.findIdx? (fun c => c == ':') u with
  | some i => if 0 < i ∧ (u.take i).all (fun c => schemeChar c) then u.drop (i + 1) else u
  | none => u

/-- Drop a leading `//netloc` part up to the next `/`, `?` or `#`. -/
def dropNetloc (u : Str) : Str :=
  if strStarts u (S "//") = true then
    (u.drop 2).dropWhile (fun c => !(c == '/' || c == '?' || c == '#'))
  else u

/-- The `path` component of `urllib.parse.urlsplit(url)`. -/
def urlsplitPath (u : Str) : Str :=
  (((dropNetloc (dropScheme (scrubUrl u))).takeWhile (fun c => !(c == '#'))).takeWhile
    (fun c => !(c == '?')))

/-- Python `get_code_from_jurisdiction_url(url)`: second segment of the
slash-stripped path, with the `IndexError` of a missing segment swallowed
into an empty string by the `try`/`except`. -/
def get_code_from_jurisdiction_url (url : Str) : Str :=
  let pieces := splitC '/' (stripC '/' (urlsplitPath url))
  (pieces[1]?).getD []

/-! ### The recursive text validators

Scraped values are sums of exact-type-checked alternatives: a
`NavigableString` (a `str` subclass, distinguished by `type(value) ==
NavigableString`), a plain `str`, a `list`, a `dict` with string keys
(Python dicts preserve insertion order, so an association list), or a
value of any other type, carried with the rendering of its type and of
itself as they would appear in the error message. -/

inductive PyVal where
  | nav : Str → PyVal
  | str : Str → PyVal
  | list : List PyVal → PyVal
  | dict : List (Str × PyVal) → PyVal
  | other : Str → Str → PyVal

mutual

/-- Python `validate_list_is_all_text(l)`: converts `NavigableString`
leaves to `str`, recurses into lists and dicts, and raises (`.error`) on
the first element of any other type. -/
def validate_list_is_all_text : List PyVal → Except Str (List PyVal)
  | [] => .ok []
  | .nav s :: rest =>
    match validate_list_is_all_text rest with
    | .ok r => .ok (.str s :: r)
    | .error e => .error e
  | .str s :: rest =>
    match validate_list_is_all_text rest with
    | .ok r => .ok (.str s :: r)
    | .error e => .error e
  | .list l :: rest =>
    match validate_list_is_all_text l with
    | .error e => .error e
    | .ok l2 =>
      match validate_list_is_all_text rest with
      | .ok r => .ok (.list l2 :: r)
      | .error e => .error e
  | .dict d :: rest =>
    match validate_dictionary_is_all_text d with
    | .error e => .error e
    | .ok d2 =>
      match validate_list_is_all_text rest with
      | .ok r => .ok (.dict d2 :: r)
      | .error e => .error e
  | .other ty rep :: _ =>
    .error (S "Not a str, list, or dict: " ++ ty ++ S ": " ++ rep)

/-- Python `validate_dictionary_is_all_text(d)`. -/
def validate_dictionary_is_all_text :
    List (Str × PyVal) → Except Str (List (Str × PyVal))
  | [] => .ok []
  | (k, .nav s) :: rest =>
    match validate_dictionary_is_all_text rest with
    | .ok r => .ok ((k, .str s) :: r)
    | .error e => .error e
  | (k, .str s) :: rest =>
    match validate_dictionary_is_all_text rest with
    | .ok r => .ok ((k, .str s) :: r)
    | .error e => .error e
  | (k, .dict d) :: rest =>
    match validate_dictionary_is_all_text d with
    | .error e => .error e
    | .ok d2 =>
      match validate_dictionary_is_all_text rest with
      | .ok r => .ok ((k, .dict d2) :: r)
      | .error e => .error e
  | (k, .list l) :: rest =>
    match validate_list_is_all_text l with
    | .error e => .error e
    | .ok l2 =>
      match validate_dictionary_is_all_text rest with
      | .ok r => .ok ((k, .list l2) :: r)
      | .error e => .error e
  | (k, .other ty rep) :: _ =>
    .error (S "Not a str: k=" ++ k ++ S " " ++ ty ++ S ": " ++ rep)

end

mutual

/-- Expected successful output: every `NavigableString` leaf becomes a
plain string; the list and dict structure is unchanged. -/
def textifyList : List PyVal → List PyVal
  | [] => []
  | .nav s :: rest => .str s :: textifyList rest
  | .str s :: rest => .str s :: textifyList rest
  | .list l :: rest => .list (textifyList l) :: textifyList rest
  | .dict d :: rest => .dict (textifyDict d) :: textifyList rest
  | .other ty rep :: rest => .other ty rep :: textifyList rest

/-- Companion of `textifyList` for dictionaries. -/
def textifyDict : List (Str × PyVal) → List (Str × PyVal)
  | [] => []
  | (k, .nav s) :: rest => (k, .str s) :: textifyDict rest
  | (k, .str s) :: rest => (k, .str s) :: textifyDict rest
  | (k, .list l) :: rest => (k, .list (textifyList l)) :: textifyDict rest
  | (k, .dict d) :: rest => (k, .dict (textifyDict d)) :: textifyDict rest
  | (k, .other ty rep) :: rest => (k, .other ty rep) :: textifyDict rest

end

mutual

/-- Error message of the first disallowed leaf in traversal order of a
list, if any, in the format of `validate_list_is_all_text`. -/
def firstBadList : List PyVal → Option Str
  | [] => none
  | .nav _ :: rest => firstBadList rest
  | .str _ :: rest => firstBadList rest
  | .list l :: rest =>
    match firstBadList l with
    | some e => some e
    | none => firstBadList rest
  | .dict d :: rest =>
    match firstBadDict d with
    | some e => some e
    | none => firstBadList rest
  | .other ty rep :: _ =>
    some (S "Not a str, list, or dict: " ++ ty ++ S ": " ++ rep)

/-- Error message of the first disallowed leaf in traversal order of a
dictionary, if any, in the format of `validate_dictionary_is_all_text`. -/
def firstBadDict : List (Str × PyVal) → Option Str
  | [] => none
  | (_, .nav _) :: rest => firstBadDict rest
  | (_, .str _) :: rest => firstBadDict rest
  | (_, .dict d) :: rest =>
    match firstBadDict d with
    | some e => some e
    | none => firstBadDict rest
  | (_, .list l) :: rest =>
    match firstBadList l with
    | some e => some e
    | none => firstBadDict rest
  | (k, .other ty rep) :: _ =>
    some (S "Not a str: k=" ++ k ++ S " " ++ ty ++ S ": " ++ rep)

end

/-! ### Lemma kit for the string embedding -/

theorem strStarts_nil_pat (l : Str) : strStarts l [] = true := by
  cases l <;> rfl

theorem strStarts_append_self (p t : Str) : strStarts (p ++ t) p = true := by
  induction p with
  | nil => exact strStarts_nil_pat t
  | cons c p ih => simp [strStarts, ih]

theorem strStarts_refl (l : Str) : strStarts l l = true := by
  have h := strStarts_append_self l []
  simpa using h

theorem strStarts_iff {l p : Str} : strStarts l p = true ↔ ∃ t, l = p ++ t := by
  constructor
  · intro h
    induction p generalizing l with
    | nil => exact ⟨l, rfl⟩
    | cons c p ih =>
      cases l with
      | nil => simp [strStarts] at h
      | cons d l =>
        simp only [strStarts, Bool.and_eq_true, beq_iff_eq] at h
        obtain ⟨t, ht⟩ := ih h.2
        exact ⟨t, by simp [h.1, ht]⟩
  · rintro ⟨t, rfl⟩
    exact strStarts_append_self p t

theorem strStarts_length {l p : Str} (h : strStarts l p = true) :
    p.length ≤ l.length := by
  obtain ⟨t, rfl⟩ := strStarts_iff.mp h
  simp

theorem strStarts_append_extend {l p : Str} (m : Str) (h : strStarts l p = true) :
    strStarts (l ++ m) p = true := by
  obtain ⟨t, rfl⟩ := strStarts_iff.mp h
  rw [List.append_assoc]
  exact strStarts_append_self p (t ++ m)

theorem strStarts_single (c p : Char) (t : Str) :
    strStarts (c :: t) [p] = (c == p) := by
  simp [strStarts, strStarts_nil_pat]

theorem strStarts_not_mem {b : Str} {c : Char} (h : c ∉ b) :
    strStarts b [c] = false := by
  cases b with
  | nil => rfl
  | cons d t =>
    rw [strStarts_single]
    simp only [List.mem_cons, not_or] at h
    simp [Ne.symm h.1]

theorem hasSub_of_starts {l p : Str} (h : strStarts l p = true) :
    hasSub l p = true := by
  cases l with
  | nil => exact h
  | cons c t => simp [hasSub, h]

theorem hasSub_tail {t p : Str} (c : Char) (h : hasSub t p = true) :
    hasSub (c :: t) p = true := by
  simp [hasSub, h]

theorem hasSub_of_drop {l p : Str} (i : Nat) (h : strStarts (l.drop i) p = true) :
    hasSub l p = true := by
  induction i generalizing l with
  | zero => exact hasSub_of_starts (by simpa using h)
  | succ n ih =>
    cases l with
    | nil => exact hasSub_of_starts (by simpa using h)
    | cons c t => exact hasSub_tail c (ih (by simpa using h))

theorem hasSub_append_right {b p : Str} (a : Str) (h : hasSub b p = true) :
    hasSub (a ++ b) p = true := by
  induction a with
  | nil => simpa using h
  | cons c a ih => exact hasSub_tail c ih

theorem hasSub_middle (a p b : Str) : hasSub (a ++ p ++ b) p = true := by
  rw [List.append_assoc]
  exact hasSub_append_right a (hasSub_of_starts (strStarts_append_self p b))

theorem hasSub_iff_drop {l p : Str} :
    hasSub l p = true ↔ ∃ i, strStarts (l.drop i) p = true := by
  constructor
  · intro h
    induction l with
    | nil => exact ⟨0, h⟩
    | cons c t ih =>
      simp only [hasSub, Bool.or_eq_true] at h
      rcases h with h | h
      · exact ⟨0, h⟩
      · obtain ⟨i, hi⟩ := ih h
        exact ⟨i + 1, by simpa using hi⟩
  · rintro ⟨i, hi⟩
    exact hasSub_of_drop i hi

theorem strStarts_sep_split {c : Char} {t : Str} (hc : c ∉ t) :
    ∀ {x y : Str}, strStarts (x ++ c :: y) t = true → strStarts x t = true := by
  induction t with
  | nil => intro x y _; exact strStarts_nil_pat x
  | cons d t ih =>
    intro x y h
    cases x with
    | nil =>
      simp only [List.nil_append, strStarts, Bool.and_eq_true, beq_iff_eq] at h
      exact absurd h.1 (by simp only [List.mem_cons, not_or] at hc; exact hc.1)
    | cons e x =>
      simp only [List.cons_append, strStarts, Bool.and_eq_true] at h ⊢
      refine ⟨h.1, ?_⟩
      exact ih (by simp only [List.mem_cons, not_or] at hc; exact hc.2) h.2

theorem hasSub_sep_split {c : Char} {t : Str} (hc : c ∉ t) :
    ∀ {a b : Str}, hasSub (a ++ c :: b) t = true →
      hasSub a t = true ∨ hasSub b t = true := by
  intro a b h
  induction a with
  | nil =>
    simp only [List.nil_append, hasSub, Bool.or_eq_true] at h
    rcases h with h | h
    · cases t with
      | nil => exact Or.inl rfl
      | cons d t =>
        simp only [strStarts, Bool.and_eq_true, beq_iff_eq] at h
        exact absurd h.1 (by simp only [List.mem_cons, not_or] at hc; exact hc.1)
    · exact Or.inr h
  | cons e a ih =>
    simp only [List.cons_append, hasSub, Bool.or_eq_true] at h
    rcases h with h | h
    · exact Or.inl (hasSub_of_starts (strStarts_sep_split hc (x := e :: a) h))
    · rcases ih h with h2 | h2
      · exact Or.inl (hasSub_tail e h2)
      · exact Or.inr h2

theorem strEnds_append_full (x y : Str) : strEnds (x ++ y) y = true := by
  unfold strEnds
  rw [List.reverse_append]
  exact strStarts_append_self _ _

theorem strEnds_single (c p : Char) : strEnds [c] [p] = (c == p) := by
  unfold strEnds
  simp [strStarts_single]

theorem strEnds_append_right {x y : Str} (hy : y ≠ []) (p : Char) :
    strEnds (x ++ y) [p] = strEnds y [p] := by
  obtain ⟨c, t, hct⟩ : ∃ c t, y.reverse = c :: t := by
    cases hr : y.reverse with
    | nil => exact absurd (List.reverse_eq_nil_iff.mp hr) hy
    | cons c t => exact ⟨c, t, rfl⟩
  unfold strEnds
  rw [List.reverse_append, hct, List.cons_append]
  simp [strStarts_single]

theorem strEnds_not_mem {y : Str} {p : Char} (hy : y ≠ []) (hp : p ∉ y) :
    strEnds y [p] = false := by
  obtain ⟨c, t, hct⟩ : ∃ c t, y.reverse = c :: t := by
    cases hr : y.reverse with
    | nil => exact absurd (List.reverse_eq_nil_iff.mp hr) hy
    | cons c t => exact ⟨c, t, rfl⟩
  have hc : c ∈ y := by
    rw [← List.mem_reverse, hct]
    exact List.mem_cons_self c t
  unfold strEnds
  rw [hct]
  simp only [List.reverse_cons, List.reverse_nil, List.nil_append, strStarts_single]
  exact beq_eq_false_iff_ne.mpr (fun hcp => hp (hcp ▸ hc))

theorem pjoin_cons {a b : Str} (hb : strStarts b (S "/") = false) (ha : a ≠ [])
    (hae : strEnds a (S "/") = false) : pjoin a b = a ++ '/' :: b := by
  unfold pjoin
  rw [if_neg (by simp [hb]), if_neg (by simp [ha, hae])]

theorem pjoin_flat {a b : Str} (hb : strStarts b (S "/") = false)
    (hae : strEnds a (S "/") = true) : pjoin a b = a ++ b := by
  unfold pjoin
  rw [if_neg (by simp [hb]), if_pos (Or.inr hae)]

theorem pjoin_abs {a b : Str} (hb : strStarts b (S "/") = true) : pjoin a b = b := by
  unfold pjoin
  rw [if_pos hb]

theorem splitC_ne_nil (c : Char) (l : Str) : splitC c l ≠ [] := by
  cases l with
  | nil => simp [splitC]
  | cons x xs =>
    unfold splitC
    by_cases h : x = c
    · simp [h]
    · simp only [h, if_false]
      cases splitC c xs <;> simp

theorem mem_of_mem_splitC {c : Char} :
    ∀ {l t : Str}, t ∈ splitC c l → ∀ {x : Char}, x ∈ t → x ∈ l := by
  intro l
  induction l with
  | nil =>
    intro t ht x hx
    simp [splitC] at ht
    subst ht
    simp at hx
  | cons y ys ih =>
    intro t ht x hx
    unfold splitC at ht
    by_cases h : y = c
    · simp only [h, if_true] at ht
      rcases List.mem_cons.mp ht with h1 | h1
      · subst h1; simp at hx
      · exact List.mem_cons_of_mem _ (ih h1 hx)
    · simp only [h, if_false] at ht
      cases hs : splitC c ys with
      | nil => exact absurd hs (splitC_ne_nil c ys)
      | cons hh tt =>
        rw [hs] at ht
        rcases List.mem_cons.mp ht with h1 | h1
        · subst h1
          rcases List.mem_cons.mp hx with h2 | h2
          · exact h2 ▸ List.mem_cons_self y ys
          · exact List.mem_cons_of_mem _ (ih (hs ▸ List.mem_cons_self hh tt) h2)
        · exact List.mem_cons_of_mem _ (ih (hs ▸ List.mem_cons_of_mem _ h1) hx)

theorem stripHtml_append (p : Str) : stripHtml (p ++ S ".html") = p := by
  unfold stripHtml
  rw [if_pos (strEnds_append_full p (S ".html"))]
  have hl : (p ++ S ".html").length - 5 = p.length := by
    simp [S]
  rw [hl]
  exact List.take_left p (S ".html")

theorem largestLE_eq_some {cond : Nat → Bool} :
    ∀ {n k : Nat}, k ≤ n → cond k = true →
      (∀ j, k < j → j ≤ n → cond j = false) → largestLE cond n = some k := by
  intro n
  induction n with
  | zero =>
    intro k hk hc _
    have : k = 0 := Nat.le_zero.mp hk
    subst this
    simp [largestLE, hc]
  | succ n ih =>
    intro k hk hc hmax
    by_cases h : cond (n + 1) = true
    · have hkn : k = n + 1 := by
        by_contra hne
        have hlt : k < n + 1 := Nat.lt_of_le_of_ne hk hne
        rw [hmax (n + 1) hlt (Nat.le_refl _)] at h
        exact Bool.false_ne_true h
      subst hkn
      simp [largestLE, h]
    · have hkn : k ≤ n := by
        rcases Nat.lt_or_ge k (n + 1) with h1 | h1
        · exact Nat.lt_succ_iff.mp h1
        · have : k = n + 1 := Nat.le_antisymm hk h1
          rw [this] at hc
          exact absurd hc h
      simp only [largestLE, h, if_false]
      exact ih hkn hc (fun j hj hjn => hmax j hj (Nat.le_succ_of_le hjn))

theorem largestLE_eq_none {cond : Nat → Bool} :
    ∀ {n : Nat}, (∀ j, j ≤ n → cond j = false) → largestLE cond n = none := by
  intro n
  induction n with
  | zero =>
    intro h
    simp [largestLE, h 0 (Nat.le_refl 0)]
  | succ n ih =>
    intro h
    simp only [largestLE, h (n + 1) (Nat.le_refl _), if_false]
    exact ih (fun j hj => h j (Nat.le_succ_of_le hj))

theorem hasSub_length {l p : Str} (h : hasSub l p = true) : p.length ≤ l.length := by
  obtain ⟨i, hi⟩ := hasSub_iff_drop.mp h
  calc p.length ≤ (l.drop i).length := strStarts_length hi
    _ ≤ l.length := by simp

theorem contains_eq_false {l : Str} {c : Char} (h : c ∉ l) : l.contains c = false := by
  simpa using h

theorem reGroupOne_eq_none {u : Str} (h : hasSub u legalcodeChars = false) :
    reGroupOne u = none := by
  unfold reGroupOne
  rw [largestLE_eq_none]
  · rfl
  · intro j _
    have hs : strStarts (u.drop j) legalcodeChars = false := by
      by_contra hne
      rw [hasSub_of_drop j (Bool.not_eq_false _ ▸ hne)] at h
      exact Bool.noConfusion h
    simp [matchCond, hs]

theorem reGroupOne_suffix {p q : Str} (hnl : '\n' ∉ p)
    (hnone : hasSub ((p ++ (legalcodeChars ++ q)).drop (p.length + 1)) legalcodeChars
      = false) :
    reGroupOne (p ++ (legalcodeChars ++ q)) = some p := by
  unfold reGroupOne
  have hstep : largestLE (matchCond (p ++ (legalcodeChars ++ q)))
      (p ++ (legalcodeChars ++ q)).length = some p.length := by
    apply largestLE_eq_some
    · simp
    · unfold matchCond
      rw [List.drop_left, List.take_left, contains_eq_false hnl]
      simp [strStarts_append_self]
    · intro j hj _
      have hs : strStarts ((p ++ (legalcodeChars ++ q)).drop j) legalcodeChars
          = false := by
        by_contra hne
        have hne2 := Bool.not_eq_false _ ▸ hne
        obtain ⟨m, hm⟩ : ∃ m, j = (p.length + 1) + m := ⟨j - (p.length + 1), by omega⟩
        rw [hm, ← List.drop_drop] at hne2
        rw [hasSub_of_drop m hne2] at hnone
        exact Bool.noConfusion hnone
      simp [matchCond, hs]
  rw [hstep]
  simp [List.take_left]

theorem legalcodeChars_eq :
    legalcodeChars = ['l', 'e', 'g', 'a', 'l', 'c', 'o', 'd', 'e'] := rfl

theorem hasSub_egalcode_dot {lang : Str} (hl : hasSub lang legalcodeChars = false) :
    hasSub (['e', 'g', 'a', 'l', 'c', 'o', 'd', 'e', '.'] ++ lang) legalcodeChars
      = false := by
  by_contra hne
  have h := Bool.not_eq_false _ ▸ hne
  obtain ⟨i, hi⟩ := hasSub_iff_drop.mp h
  rcases Nat.lt_or_ge i 9 with hlt | hge
  · rw [legalcodeChars_eq] at hi
    interval_cases i <;> simp [strStarts] at hi
  · obtain ⟨m, hm⟩ : ∃ m, i = 9 + m := ⟨i - 9, by omega⟩
    subst hm
    have hd := List.drop_left ['e', 'g', 'a', 'l', 'c', 'o', 'd', 'e', '.'] lang
    simp only [List.length_cons, List.length_nil] at hd
    rw [← List.drop_drop, hd] at hi
    rw [hasSub_of_drop m hi] at hl
    exact Bool.noConfusion hl

theorem hasSub_append_pat (a p q : Str) : hasSub (a ++ (p ++ q)) p = true := by
  have h := hasSub_middle a p q
  rwa [List.append_assoc] at h

theorem glu_not_special {u : Str} (h : hasSub u legalcodeChars = true) :
    u ≠ S "http://opensource.org/licenses/bsd-license.php" ∧
      u ≠ S "http://opensource.org/licenses/mit-license.php" := by
  constructor <;> intro he <;> rw [he] at h <;> exact absurd h (by decide)

theorem glu_ok_of_suffix {p q : Str} (hnl : '\n' ∉ p)
    (hnone : hasSub ((p ++ (legalcodeChars ++ q)).drop (p.length + 1)) legalcodeChars
      = false) :
    get_license_url_from_legalcode_url (p ++ (legalcodeChars ++ q)) = .ok p := by
  obtain ⟨h1, h2⟩ := glu_not_special (hasSub_append_pat p legalcodeChars q)
  unfold get_license_url_from_legalcode_url
  rw [if_neg h1, if_neg h2, reGroupOne_suffix hnl hnone]

theorem glu_strip_plain {p : Str} (hnl : '\n' ∉ p) :
    get_license_url_from_legalcode_url (p ++ legalcodeChars) = .ok p := by
  have h0 : p ++ legalcodeChars = p ++ (legalcodeChars ++ []) := by simp
  rw [h0]
  apply glu_ok_of_suffix hnl
  have hd : (p ++ (legalcodeChars ++ [])).drop (p.length + 1)
      = legalcodeChars.drop 1 := by
    rw [← List.drop_drop, List.drop_left]
    rfl
  rw [hd]
  decide

theorem glu_strip_lang {p lang : Str} (hnl : '\n' ∉ p)
    (hlang : hasSub lang legalcodeChars = false) :
    get_license_url_from_legalcode_url (p ++ (legalcodeChars ++ '.' :: lang)) = .ok p := by
  apply glu_ok_of_suffix hnl
  have hd : (p ++ (legalcodeChars ++ '.' :: lang)).drop (p.length + 1)
      = ['e', 'g', 'a', 'l', 'c', 'o', 'd', 'e', '.'] ++ lang := by
    rw [← List.drop_drop, List.drop_left]
    rfl
  rw [hd]
  exact hasSub_egalcode_dot hlang

theorem glu_error_of_no_legalcode {u : Str}
    (h1 : u ≠ S "http://opensource.org/licenses/bsd-license.php")
    (h2 : u ≠ S "http://opensource.org/licenses/mit-license.php")
    (h : hasSub u legalcodeChars = false) :
    get_license_url_from_legalcode_url u = .error (S "regex did not match " ++ u) := by
  unfold get_license_url_from_legalcode_url
  rw [if_neg h1, if_neg h2, reGroupOne_eq_none h]

/-! ### Claims C4 and C10: `get_license_url_from_legalcode_url` -/

/-- C4: the two legacy opensource.org URLs are special-cased to the fixed
BSD and MIT license URLs; the documented example with a `legalcode.es`
suffix maps to the directory URL; whenever the regex pattern matches a
trailing `legalcode` or `legalcode.<language>` suffix (the prefix being
newline-free is exactly what the pattern's dot requires, and a language
code contains no `legalcode`), the function returns the input with that
suffix stripped; and whenever the pattern does not match — in particular
whenever `legalcode` does not occur at all — it raises a `ValueError`
carrying the unmatched URL. -/
theorem claim_c4_legalcode_url_mapping :
    get_license_url_from_legalcode_url (S "http://opensource.org/licenses/bsd-license.php")
        = .ok (S "http://creativecommons.org/licenses/BSD/") ∧
    get_license_url_from_legalcode_url (S "http://opensource.org/licenses/mit-license.php")
        = .ok (S "http://creativecommons.org/licenses/MIT/") ∧
    get_license_url_from_legalcode_url
        (S "http://creativecommons.org/licenses/by/4.0/legalcode.es")
        = .ok (S "http://creativecommons.org/licenses/by/4.0/") ∧
    (∀ p : Str, '\n' ∉ p →
      get_license_url_from_legalcode_url (p ++ S "legalcode") = .ok p) ∧
    (∀ p lang : Str, '\n' ∉ p → hasSub lang (S "legalcode") = false →
      get_license_url_from_legalcode_url (p ++ (S "legalcode" ++ '.' :: lang)) = .ok p) ∧
    (∀ u : Str, u ≠ S "http://opensource.org/licenses/bsd-license.php" →
      u ≠ S "http://opensource.org/licenses/mit-license.php" →
      hasSub u (S "legalcode") = false →
      get_license_url_from_legalcode_url u = .error (S "regex did not match " ++ u)) := by
  refine ⟨by decide, by decide, by decide, ?_, ?_, ?_⟩
  · intro p hp
    exact glu_strip_plain hp
  · intro p lang hp hlang
    exact glu_strip_lang hp hlang
  · intro u h1 h2 h
    exact glu_error_of_no_legalcode h1 h2 h

/-- Witness for C4 at concrete inputs: a trailing suffix is stripped, and
an input without the pattern raises with the URL in the message. -/
theorem claim_c4_witness :
    get_license_url_from_legalcode_url
        (S "http://creativecommons.org/licenses/by-sa/3.0/" ++ S "legalcode")
        = .ok (S "http://creativecommons.org/licenses/by-sa/3.0/") ∧
    get_license_url_from_legalcode_url (S "http://example.org/nomatch")
        = .error (S "regex did not match " ++ S "http://example.org/nomatch") :=
  ⟨claim_c4_legalcode_url_mapping.2.2.2.1 _ (by decide),
   claim_c4_legalcode_url_mapping.2.2.2.2.2 _ (by decide) (by decide) (by decide)⟩

/-- C10 as stated is false: the regex `^(.*)legalcode(\.%s)?` is matched
with `re.match` and the dot does not match a newline, so an input that
contains `legalcode` only after a newline fails to match and raises even
though `legalcode` occurs as a substring. -/
theorem claim_c10_counterexample :
    hasSub (S "\nlegalcode") (S "legalcode") = true ∧
    S "\nlegalcode" ≠ S "http://opensource.org/licenses/bsd-license.php" ∧
    S "\nlegalcode" ≠ S "http://opensource.org/licenses/mit-license.php" ∧
    get_license_url_from_legalcode_url (S "\nlegalcode")
      = .error (S "regex did not match \nlegalcode") := by
  exact ⟨by decide, by decide, by decide, by decide⟩

/-- C10 (amended): for every input, other than the two special-cased
legacy URLs, of the form `p ++ "legalcode" ++ q` where the prefix `p` is
newline-free and `legalcode` does not occur again after that occurrence,
the function does not raise: it returns `p`, the prefix ending just
before the last occurrence of `legalcode`, silently discarding the
characters of `q` that follow.  (The two legacy URLs do not contain
`legalcode`, so they cannot take this form.)  Inputs whose only
occurrences of `legalcode` are preceded by a newline raise instead. -/
theorem claim_c10_unanchored_match (p q : Str) (hp : '\n' ∉ p)
    (hlast : hasSub ((p ++ (S "legalcode" ++ q)).drop (p.length + 1)) (S "legalcode")
      = false) :
    get_license_url_from_legalcode_url (p ++ (S "legalcode" ++ q)) = .ok p :=
  glu_ok_of_suffix hp hlast

/-- Witness for C10: trailing characters after `legalcode` are silently
discarded at a concrete input. -/
theorem claim_c10_witness :
    get_license_url_from_legalcode_url
        (S "http://creativecommons.org/licenses/by/4.0/" ++ (S "legalcode" ++ S ".es.html"))
        = .ok (S "http://creativecommons.org/licenses/by/4.0/") :=
  claim_c10_unanchored_match (S "http://creativecommons.org/licenses/by/4.0/")
    (S ".es.html") (by decide) (by decide)

/-! ### Claim C1: concrete parse of `by-nc-nd_4.0.html` -/

/-- C1: parsing the filename `by-nc-nd_4.0.html` yields license code
`by-nc-nd`, version `4.0`, empty jurisdiction and language codes, and the
directory-style URL with a trailing slash and no legalcode segment. -/
theorem claim_c1_parse_by_nc_nd :
    (parse_legalcode_filename (S "by-nc-nd_4.0.html")).map (·.license_code)
        = some (S "by-nc-nd") ∧
    (parse_legalcode_filename (S "by-nc-nd_4.0.html")).map (·.version)
        = some (S "4.0") ∧
    (parse_legalcode_filename (S "by-nc-nd_4.0.html")).map (·.jurisdiction_code)
        = some [] ∧
    (parse_legalcode_filename (S "by-nc-nd_4.0.html")).map (·.language_code)
        = some [] ∧
    (parse_legalcode_filename (S "by-nc-nd_4.0.html")).map (·.url)
        = some (S "http://creativecommons.org/licenses/by-nc-nd/4.0/") :=
  ⟨by decide, by decide, by decide, by decide, by decide⟩

/-! ### Claim C8: `get_code_from_jurisdiction_url` -/

/-- C8: for every URL, the function splits the slash-stripped path of the
URL on slashes and returns the second piece; when fewer than two pieces
exist it returns the empty string instead of propagating the
out-of-range `IndexError`. -/
theorem claim_c8_jurisdiction_code_segment :
    (∀ url : Str, ∀ h : 1 < (splitC '/' (stripC '/' (urlsplitPath url))).length,
      get_code_from_jurisdiction_url url
        = (splitC '/' (stripC '/' (urlsplitPath url))).get ⟨1, h⟩) ∧
    (∀ url : Str, (splitC '/' (stripC '/' (urlsplitPath url))).length ≤ 1 →
      get_code_from_jurisdiction_url url = []) ∧
    get_code_from_jurisdiction_url (S "http://creativecommons.org/international/nl/")
      = S "nl" ∧
    get_code_from_jurisdiction_url (S "http://creativecommons.org/") = [] := by
  refine ⟨?_, ?_, by decide, by decide⟩
  · intro url h
    show ((splitC '/' (stripC '/' (urlsplitPath url)))[1]?).getD [] = _
    rw [List.getElem?_eq_getElem h]
    simp [List.get_eq_getElem]
  · intro url h
    show ((splitC '/' (stripC '/' (urlsplitPath url)))[1]?).getD [] = _
    rw [List.getElem?_eq_none h]
    rfl

/-- Witness for C8 at a concrete jurisdiction URL with at least two path
segments, and the result it extracts. -/
theorem claim_c8_witness :
    get_code_from_jurisdiction_url (S "http://creativecommons.org/international/de/")
      = (splitC '/' (stripC '/'
          (urlsplitPath (S "http://creativecommons.org/international/de/")))).get
            ⟨1, by decide⟩ :=
  claim_c8_jurisdiction_code_segment.1 _ (by decide)

/-! ### Claim C5: the `compute_about_url` table -/

/-- C5 as stated is false: a non-empty jurisdiction code is not appended
in the GPL branch (nor in the BSD/MIT branch); `compute_about_url("GPL",
"2.0", "de")` drops the jurisdiction entirely, and this call is reachable
from `parse_legalcode_filename("GPL_2.0_de.html")`. -/
theorem claim_c5_counterexample :
    compute_about_url (S "GPL") (S "2.0") (S "de")
        = S "http://creativecommons.org/licenses/GPL/2.0/" ∧
    hasSub (compute_about_url (S "GPL") (S "2.0") (S "de")) (S "de") = false ∧
    compute_about_url (S "BSD") (S "1.0") (S "de")
        = S "http://creativecommons.org/licenses/BSD/" :=
  ⟨by decide, by decide, by decide⟩

/-- C5 (amended): `compute_about_url` is deterministic and table-driven.
For BSD and MIT the result has neither version nor jurisdiction segment;
for every code containing `GPL` the result always includes the version
segment but ignores the jurisdiction; for CC0, zero and mark the path
base is `publicdomain`, otherwise `licenses`; and in those last two
(non-BSD/MIT, non-GPL) branches a non-empty jurisdiction code is appended
as the last path segment.  The two documented examples evaluate as
claimed. -/
theorem claim_c5_compute_about_url_table :
    (∀ ver jur : Str, compute_about_url (S "BSD") ver jur
        = S "http://creativecommons.org/licenses/BSD/") ∧
    (∀ ver jur : Str, compute_about_url (S "MIT") ver jur
        = S "http://creativecommons.org/licenses/MIT/") ∧
    (∀ code ver jur : Str, hasSub code (S "GPL") = true →
      compute_about_url code ver jur
        = S "http://creativecommons.org" ++ S "/licenses/" ++ code ++ S "/"
            ++ ver ++ S "/") ∧
    (∀ code ver jur : Str, code = S "CC0" ∨ code = S "zero" ∨ code = S "mark" →
      compute_about_url code ver jur
        = S "http://creativecommons.org" ++ S "/" ++ S "publicdomain" ++ S "/"
            ++ code ++ S "/" ++ ver ++ S "/"
            ++ (if jur = [] then [] else jur ++ S "/")) ∧
    (∀ code ver jur : Str, code ≠ S "BSD" → code ≠ S "MIT" →
      hasSub code (S "GPL") = false →
      code ≠ S "CC0" → code ≠ S "zero" → code ≠ S "mark" →
      compute_about_url code ver jur
        = S "http://creativecommons.org" ++ S "/" ++ S "licenses" ++ S "/"
            ++ code ++ S "/" ++ ver ++ S "/"
            ++ (if jur = [] then [] else jur ++ S "/")) ∧
    compute_about_url (S "GPL") (S "2.0") []
        = S "http://creativecommons.org/licenses/GPL/2.0/" ∧
    compute_about_url (S "BSD") [] [] = S "http://creativecommons.org/licenses/BSD/" := by
  refine ⟨?_, ?_, ?_, ?_, ?_, by decide, by decide⟩
  · intro ver jur
    simp only [compute_about_url, true_or, or_true, if_true]
    decide
  · intro ver jur
    simp only [compute_about_url, true_or, or_true, if_true]
    decide
  · intro code ver jur hGPL
    have h1 : code ≠ S "BSD" := by
      intro he; rw [he] at hGPL; exact absurd hGPL (by decide)
    have h2 : code ≠ S "MIT" := by
      intro he; rw [he] at hGPL; exact absurd hGPL (by decide)
    simp only [compute_about_url]
    rw [if_neg (not_or.mpr ⟨h1, h2⟩), if_pos hGPL]
  · intro code ver jur hc
    have h1 : code ≠ S "BSD" := by
      rcases hc with h | h | h <;> rw [h] <;> decide
    have h2 : code ≠ S "MIT" := by
      rcases hc with h | h | h <;> rw [h] <;> decide
    have h3 : hasSub code (S "GPL") = false := by
      rcases hc with h | h | h <;> rw [h] <;> decide
    simp only [compute_about_url]
    rw [if_neg (not_or.mpr ⟨h1, h2⟩), if_neg (fun hh => Bool.noConfusion (h3 ▸ hh)),
      if_pos hc]
    by_cases hj : jur = [] <;> simp [hj, List.append_assoc]
  · intro code ver jur h1 h2 h3 h4 h5 h6
    simp only [compute_about_url]
    rw [if_neg (not_or.mpr ⟨h1, h2⟩), if_neg (fun hh => Bool.noConfusion (h3 ▸ hh)),
      if_neg (not_or.mpr ⟨h4, not_or.mpr ⟨h5, h6⟩⟩)]
    by_cases hj : jur = [] <;> simp [hj, List.append_assoc]

/-- Witness for C5: the general licenses branch applied to a concrete
ported license appends the jurisdiction last. -/
theorem claim_c5_witness :
    compute_about_url (S "by") (S "3.0") (S "nl")
      = S "http://creativecommons.org/licenses/by/3.0/nl/" := by
  have h := claim_c5_compute_about_url_table.2.2.2.2.1 (S "by") (S "3.0") (S "nl")
    (by decide) (by decide) (by decide) (by decide) (by decide) (by decide)
  rw [h]
  decide

/-! ### Shape lemmas for `parse_legalcode_filename` -/

theorem parse_zero {f lic0 ver : Str} {rest : List Str}
    (hs : splitC '_' (stripHtml f) = lic0 :: ver :: rest)
    (hz : strStarts (remapLicense lic0) (S "zero") = true) :
    parse_legalcode_filename f
      = some (mkLicenseData (S "CC0") (S "publicdomain") (remapLicense lic0) ver
          none rest) := by
  unfold parse_legalcode_filename
  rw [hs]
  simp only [if_pos hz]

theorem parse_nonzero_nil {f lic0 ver : Str}
    (hs : splitC '_' (stripHtml f) = [lic0, ver])
    (hz : strStarts (remapLicense lic0) (S "zero") = false) :
    parse_legalcode_filename f
      = some (mkLicenseData (remapLicense lic0) (S "licenses") (remapLicense lic0) ver
          none []) := by
  unfold parse_legalcode_filename
  rw [hs]
  simp [hz]

theorem parse_nonzero_badfloat {f lic0 ver j : Str} {rest' : List Str}
    (hs : splitC '_' (stripHtml f) = lic0 :: ver :: j :: rest')
    (hz : strStarts (remapLicense lic0) (S "zero") = false)
    (hf : pyFloat? ver = none) :
    parse_legalcode_filename f = none := by
  unfold parse_legalcode_filename
  rw [hs]
  simp [hz, hf]

theorem parse_nonzero_lt {f lic0 ver j : Str} {rest' : List Str} {v : PyFloat}
    (hs : splitC '_' (stripHtml f) = lic0 :: ver :: j :: rest')
    (hz : strStarts (remapLicense lic0) (S "zero") = false)
    (hf : pyFloat? ver = some v) (hlt : pyFloatLtFour v = true) :
    parse_legalcode_filename f
      = some (mkLicenseData (remapLicense lic0) (S "licenses") (remapLicense lic0) ver
          (some j) rest') := by
  unfold parse_legalcode_filename
  rw [hs]
  simp [hz, hf, hlt]

theorem parse_nonzero_ge {f lic0 ver j : Str} {rest' : List Str} {v : PyFloat}
    (hs : splitC '_' (stripHtml f) = lic0 :: ver :: j :: rest')
    (hz : strStarts (remapLicense lic0) (S "zero") = false)
    (hf : pyFloat? ver = some v) (hlt : pyFloatLtFour v = false) :
    parse_legalcode_filename f
      = some (mkLicenseData (remapLicense lic0) (S "licenses") (remapLicense lic0) ver
          none (j :: rest')) := by
  unfold parse_legalcode_filename
  rw [hs]
  simp [hz, hf, hlt]

theorem parse_short {f : Str} {t : Str}
    (hs : splitC '_' (stripHtml f) = [t]) :
    parse_legalcode_filename f = none := by
  unfold parse_legalcode_filename
  rw [hs]

/-! ### Claim C7: error paths of `parse_legalcode_filename` -/

/-- Exact condition under which `parse_legalcode_filename` raises: fewer
than two underscore tokens (the version pop fails with `IndexError`), or
a non-`zero` license with tokens remaining after the version and a
version token that is not a valid float (`float(version)` raises). -/
def parseErrCondition (f : Str) : Bool :=
  match splitC '_' (stripHtml f) with
  | [] => true
  | [_] => true
  | lic0 :: ver :: rest =>
    !strStarts (remapLicense lic0) (S "zero") && !rest.isEmpty && (pyFloat? ver).isNone

/-- C7 as stated is false in both directions: `by_xyz.html` has the
malformed version token `xyz` yet parses without error, because with no
tokens remaining the short-circuit `parts and float(version) < 4.0`
never calls `float`; and `by.html` raises an `IndexError` (missing
version token), an error path the claim does not allow. -/
theorem claim_c7_counterexample :
    pyFloat? (S "xyz") = none ∧
    (parse_legalcode_filename (S "by_xyz.html")).isSome = true ∧
    parse_legalcode_filename (S "by.html") = none :=
  ⟨by decide, by decide, by decide⟩

/-- C7 (amended): `parse_legalcode_filename` raises exactly when the
filename yields fewer than two underscore tokens, or when the license
token is not `zero`-prefixed, tokens remain after the version, and the
version token is not a valid float; in every other case it returns a
record, with absent jurisdiction and language defaulting to the empty
string. -/
theorem claim_c7_error_characterization (f : Str) :
    parse_legalcode_filename f = none ↔ parseErrCondition f = true := by
  unfold parseErrCondition
  rcases hsp : splitC '_' (stripHtml f) with _ | ⟨lic0, _ | ⟨ver, rest⟩⟩
  · constructor <;> intro _
    · rfl
    · unfold parse_legalcode_filename
      rw [hsp]
  · constructor <;> intro _
    · rfl
    · exact parse_short hsp
  · by_cases hz : strStarts (remapLicense lic0) (S "zero") = true
    · rw [parse_zero hsp hz]
      simp [hz]
    · have hz2 : strStarts (remapLicense lic0) (S "zero") = false :=
        Bool.not_eq_true _ ▸ hz
      cases rest with
      | nil =>
        rw [parse_nonzero_nil hsp hz2]
        simp
      | cons j rest' =>
        cases hf : pyFloat? ver with
        | none =>
          rw [parse_nonzero_badfloat hsp hz2 hf]
          simp [hz2, hf]
        | some v =>
          cases hlt : pyFloatLtFour v with
          | true =>
            rw [parse_nonzero_lt hsp hz2 hf hlt]
            simp [hf]
          | false =>
            rw [parse_nonzero_ge hsp hz2 hf hlt]
            simp [hf]

/-- Witness for C7 at a concrete filename: a malformed version with a
remaining jurisdiction token raises. -/
theorem claim_c7_witness :
    parse_legalcode_filename (S "GPL_abc_de.html") = none :=
  (claim_c7_error_characterization (S "GPL_abc_de.html")).mpr (by decide)

/-! ### URL prefix machinery -/

theorem zeroStarts_remap (l : Str) :
    strStarts (remapLicense l) (S "zero") = strStarts l (S "zero") := by
  unfold remapLicense
  by_cases h1 : l = S "samplingplus"
  · rw [if_pos h1, h1]; decide
  · rw [if_neg h1]
    by_cases h2 : l = S "nc-samplingplus"
    · rw [if_pos h2, h2]; decide
    · rw [if_neg h2]

theorem remap_no_slash {l : Str} (h : '/' ∉ l) :
    strStarts (remapLicense l) (S "/") = false := by
  unfold remapLicense
  by_cases h1 : l = S "samplingplus"
  · rw [if_pos h1]; decide
  · rw [if_neg h1]
    by_cases h2 : l = S "nc-samplingplus"
    · rw [if_pos h2]; decide
    · rw [if_neg h2]; exact strStarts_not_mem h

theorem mem_of_mem_stripHtml {f : Str} {x : Char} (h : x ∈ stripHtml f) : x ∈ f := by
  unfold stripHtml at h
  by_cases he : strEnds f (S ".html") = true
  · rw [if_pos he] at h
    exact List.mem_of_mem_take h
  · rwa [if_neg he] at h

theorem token_not_mem {c : Char} {f t : Str} (hc : c ∉ f)
    (ht : t ∈ splitC '_' (stripHtml f)) : c ∉ t :=
  fun hx => hc (mem_of_mem_stripHtml (mem_of_mem_splitC ht hx))

theorem pjoin_preserves_starts {a b pre : Str} (hb : strStarts b (S "/") = false)
    (h : strStarts a pre = true) : strStarts (pjoin a b) pre = true := by
  unfold pjoin
  rw [if_neg (fun hh => Bool.noConfusion (hb ▸ hh))]
  by_cases h2 : a = [] ∨ strEnds a (S "/") = true
  · rw [if_pos h2]; exact strStarts_append_extend b h
  · rw [if_neg h2]
    have h3 := strStarts_append_extend ('/' :: b) h
    exact h3

theorem url1_licenses {lic : Str} (hb : strStarts lic (S "/") = false) :
    pjoin (pjoin (S "http://creativecommons.org") (S "licenses")) lic
      = S "http://creativecommons.org/licenses/" ++ lic := by
  have h0 : pjoin (S "http://creativecommons.org") (S "licenses")
      = S "http://creativecommons.org/licenses" := by decide
  rw [h0, pjoin_cons hb (by decide) (by decide), List.append_cons]
  congr 1

theorem url1_publicdomain {lic : Str} (hb : strStarts lic (S "/") = false) :
    pjoin (pjoin (S "http://creativecommons.org") (S "publicdomain")) lic
      = S "http://creativecommons.org/publicdomain/" ++ lic := by
  have h0 : pjoin (S "http://creativecommons.org") (S "publicdomain")
      = S "http://creativecommons.org/publicdomain" := by decide
  rw [h0, pjoin_cons hb (by decide) (by decide), List.append_cons]
  congr 1

theorem legalcodeUrl_starts {pb lcu ver pre : Str} {jur lang : Option Str}
    (h2 : strStarts (pjoin (pjoin (S "http://creativecommons.org") pb) lcu) pre = true)
    (hv : strStarts ver (S "/") = false)
    (hj : ∀ j, jur = some j → strStarts j (S "/") = false) :
    strStarts (legalcodeUrl pb lcu ver jur lang) pre = true := by
  unfold legalcodeUrl
  have s2 : strStarts (pjoin (pjoin (pjoin (S "http://creativecommons.org") pb) lcu) ver)
      pre = true := pjoin_preserves_starts hv h2
  have s3 : ∀ u3 : Str, strStarts u3 pre = true →
      strStarts (match lang with
        | some l => if l = [] then u3 ++ ['/'] else pjoin u3 (S "legalcode." ++ l)
        | none => u3 ++ ['/']) pre = true := by
    intro u3 hu3
    rcases lang with _ | l
    · exact strStarts_append_extend ['/'] hu3
    · show strStarts (if l = [] then u3 ++ ['/'] else pjoin u3 (S "legalcode." ++ l))
        pre = true
      by_cases hl : l = []
      · rw [if_pos hl]; exact strStarts_append_extend ['/'] hu3
      · rw [if_neg hl]
        refine pjoin_preserves_starts ?_ hu3
        rfl
  rcases jur with _ | j
  · exact s3 _ s2
  · by_cases hjj : j = []
    · simp only [if_pos hjj]
      exact s3 _ s2
    · simp only [if_neg hjj]
      exact s3 _ (pjoin_preserves_starts (hj j rfl) s2)

theorem parse_nonzero_cases {f lic0 ver : Str} {rest : List Str} {r : LicenseData}
    (hs : splitC '_' (stripHtml f) = lic0 :: ver :: rest)
    (hz : strStarts (remapLicense lic0) (S "zero") = false)
    (hp : parse_legalcode_filename f = some r) :
    ∃ (jur : Option Str) (parts : List Str),
      r = mkLicenseData (remapLicense lic0) (S "licenses") (remapLicense lic0) ver
        jur parts ∧
      (∀ j, jur = some j → j ∈ rest) := by
  cases rest with
  | nil =>
    rw [parse_nonzero_nil hs hz] at hp
    injection hp with h
    exact ⟨none, [], h.symm, fun j hj => Option.noConfusion hj⟩
  | cons j rest' =>
    cases hf : pyFloat? ver with
    | none =>
      rw [parse_nonzero_badfloat hs hz hf] at hp
      exact Option.noConfusion hp
    | some v =>
      cases hlt : pyFloatLtFour v with
      | true =>
        rw [parse_nonzero_lt hs hz hf hlt] at hp
        injection hp with h
        exact ⟨some j, rest', h.symm,
          fun j2 hj2 => by cases hj2; exact List.mem_cons_self j rest'⟩
      | false =>
        rw [parse_nonzero_ge hs hz hf hlt] at hp
        injection hp with h
        exact ⟨none, j :: rest', h.symm, fun _ hj => Option.noConfusion hj⟩

theorem zero_start_no_slash {l : Str} (h : strStarts l (S "zero") = true) :
    strStarts l (S "/") = false := by
  obtain ⟨t, rfl⟩ := strStarts_iff.mp h
  rfl

/-! ### Claim C2: routing on the `zero` prefix of the license token -/

/-- C2 as stated is false for the url half: a token beginning with a
slash makes `posixpath.join` discard everything before it, so
`zero_/x.html` is routed with `path_base = "publicdomain"` and license
code `CC0`, yet its url is `/x/`, which is not under the publicdomain
path base. -/
theorem claim_c2_counterexample :
    (parse_legalcode_filename (S "zero_/x.html")).map (·.license_code)
        = some (S "CC0") ∧
    (parse_legalcode_filename (S "zero_/x.html")).map (·.url) = some (S "/x/") ∧
    (parse_legalcode_filename (S "zero_/x.html")).map
        (fun d => hasSub d.url (S "publicdomain")) = some false :=
  ⟨by decide, by decide, by decide⟩

/-- C2 (amended): whenever `parse_legalcode_filename` returns a record,
a first token starting with `zero` forces the returned license code to
`CC0` and a first token not starting with `zero` keeps the (remapped)
literal token; and provided the filename contains no slash — slashes in
later tokens reset `posixpath.join` and escape the path base — the url
is built under `http://creativecommons.org/publicdomain/` in the first
case and under `http://creativecommons.org/licenses/` in the second.
`zero_1.0.html` evaluates as the claim states. -/
theorem claim_c2_zero_routing :
    (∀ (f lic0 : Str) (rest : List Str) (r : LicenseData),
      splitC '_' (stripHtml f) = lic0 :: rest →
      parse_legalcode_filename f = some r →
      strStarts lic0 (S "zero") = true → r.license_code = S "CC0") ∧
    (∀ (f lic0 : Str) (rest : List Str) (r : LicenseData),
      splitC '_' (stripHtml f) = lic0 :: rest →
      parse_legalcode_filename f = some r →
      strStarts lic0 (S "zero") = false → r.license_code = remapLicense lic0) ∧
    (∀ (f lic0 : Str) (rest : List Str) (r : LicenseData),
      splitC '_' (stripHtml f) = lic0 :: rest →
      parse_legalcode_filename f = some r →
      '/' ∉ f → strStarts lic0 (S "zero") = true →
      strStarts r.url (S "http://creativecommons.org/publicdomain/") = true) ∧
    (∀ (f lic0 : Str) (rest : List Str) (r : LicenseData),
      splitC '_' (stripHtml f) = lic0 :: rest →
      parse_legalcode_filename f = some r →
      '/' ∉ f → strStarts lic0 (S "zero") = false →
      strStarts r.url (S "http://creativecommons.org/licenses/") = true) ∧
    (parse_legalcode_filename (S "zero_1.0.html")).map (·.license_code)
        = some (S "CC0") ∧
    (parse_legalcode_filename (S "zero_1.0.html")).map
        (fun d => hasSub d.url (S "publicdomain")) = some true := by
  refine ⟨?_, ?_, ?_, ?_, by decide, by decide⟩
  · intro f lic0 rest r hs hp hz
    rcases rest with _ | ⟨ver, rest2⟩
    · rw [parse_short hs] at hp
      exact Option.noConfusion hp
    · have hz2 : strStarts (remapLicense lic0) (S "zero") = true := by
        rw [zeroStarts_remap]; exact hz
      rw [parse_zero hs hz2] at hp
      injection hp with h
      rw [← h]
      rfl
  · intro f lic0 rest r hs hp hz
    rcases rest with _ | ⟨ver, rest2⟩
    · rw [parse_short hs] at hp
      exact Option.noConfusion hp
    · have hz2 : strStarts (remapLicense lic0) (S "zero") = false := by
        rw [zeroStarts_remap]; exact hz
      obtain ⟨jur, parts, hr, -⟩ := parse_nonzero_cases hs hz2 hp
      rw [hr]
      rfl
  · intro f lic0 rest r hs hp hsl hz
    rcases rest with _ | ⟨ver, rest2⟩
    · rw [parse_short hs] at hp
      exact Option.noConfusion hp
    · have hz2 : strStarts (remapLicense lic0) (S "zero") = true := by
        rw [zeroStarts_remap]; exact hz
      rw [parse_zero hs hz2] at hp
      injection hp with h
      rw [← h]
      show strStarts (legalcodeUrl (S "publicdomain") (remapLicense lic0) ver none
        rest2.head?) (S "http://creativecommons.org/publicdomain/") = true
      apply legalcodeUrl_starts
      · rw [url1_publicdomain (zero_start_no_slash hz2)]
        exact strStarts_append_self _ _
      · refine strStarts_not_mem (token_not_mem hsl ?_)
        rw [hs]
        exact List.mem_cons_of_mem _ (List.mem_cons_self _ _)
      · intro j hj
        exact Option.noConfusion hj
  · intro f lic0 rest r hs hp hsl hz
    rcases rest with _ | ⟨ver, rest2⟩
    · rw [parse_short hs] at hp
      exact Option.noConfusion hp
    · have hz2 : strStarts (remapLicense lic0) (S "zero") = false := by
        rw [zeroStarts_remap]; exact hz
      obtain ⟨jur, parts, hr, hjmem⟩ := parse_nonzero_cases hs hz2 hp
      rw [hr]
      show strStarts (legalcodeUrl (S "licenses") (remapLicense lic0) ver jur
        parts.head?) (S "http://creativecommons.org/licenses/") = true
      apply legalcodeUrl_starts
      · have hl0 : '/' ∉ lic0 := token_not_mem hsl (by rw [hs]; exact List.mem_cons_self _ _)
        rw [url1_licenses (remap_no_slash hl0)]
        exact strStarts_append_self _ _
      · refine strStarts_not_mem (token_not_mem hsl ?_)
        rw [hs]
        exact List.mem_cons_of_mem _ (List.mem_cons_self _ _)
      · intro j hj
        refine strStarts_not_mem (token_not_mem hsl ?_)
        rw [hs]
        exact List.mem_cons_of_mem _ (List.mem_cons_of_mem _ (hjmem j hj))

/-- Witness for C2 at `zero_1.0.html`: the zero branch applied to the
concrete record returned for that filename. -/
theorem claim_c2_witness :
    (mkLicenseData (S "CC0") (S "publicdomain") (S "zero") (S "1.0") none
      []).license_code = S "CC0" ∧
    strStarts (mkLicenseData (S "CC0") (S "publicdomain") (S "zero") (S "1.0") none
      []).url (S "http://creativecommons.org/publicdomain/") = true :=
  ⟨claim_c2_zero_routing.1 (S "zero_1.0.html") (S "zero") [S "1.0"] _ (by decide)
      (by decide) (by decide),
   claim_c2_zero_routing.2.2.1 (S "zero_1.0.html") (S "zero") [S "1.0"] _ (by decide)
      (by decide) (by decide) (by decide)⟩

/-! ### Claim C9: the recursive text validators -/

mutual

theorem validate_list_spec : ∀ l : List PyVal,
    validate_list_is_all_text l
      = match firstBadList l with
        | none => .ok (textifyList l)
        | some e => .error e
  | [] => by simp [validate_list_is_all_text, firstBadList, textifyList]
  | .nav s :: rest => by
    have ih := validate_list_spec rest
    simp only [validate_list_is_all_text, firstBadList, textifyList, ih]
    cases firstBadList rest <;> rfl
  | .str s :: rest => by
    have ih := validate_list_spec rest
    simp only [validate_list_is_all_text, firstBadList, textifyList, ih]
    cases firstBadList rest <;> rfl
  | .list l :: rest => by
    have ihl := validate_list_spec l
    have ihr := validate_list_spec rest
    simp only [validate_list_is_all_text, firstBadList, textifyList, ihl, ihr]
    cases firstBadList l <;> cases firstBadList rest <;> rfl
  | .dict d :: rest => by
    have ihd := validate_dict_spec d
    have ihr := validate_list_spec rest
    simp only [validate_list_is_all_text, firstBadList, textifyList, ihd, ihr]
    cases firstBadDict d <;> cases firstBadList rest <;> rfl
  | .other ty rep :: rest => by
    simp only [validate_list_is_all_text, firstBadList]

theorem validate_dict_spec : ∀ d : List (Str × PyVal),
    validate_dictionary_is_all_text d
      = match firstBadDict d with
        | none => .ok (textifyDict d)
        | some e => .error e
  | [] => by simp [validate_dictionary_is_all_text, firstBadDict, textifyDict]
  | (k, .nav s) :: rest => by
    have ih := validate_dict_spec rest
    simp only [validate_dictionary_is_all_text, firstBadDict, textifyDict, ih]
    cases firstBadDict rest <;> rfl
  | (k, .str s) :: rest => by
    have ih := validate_dict_spec rest
    simp only [validate_dictionary_is_all_text, firstBadDict, textifyDict, ih]
    cases firstBadDict rest <;> rfl
  | (k, .dict d) :: rest => by
    have ihd := validate_dict_spec d
    have ihr := validate_dict_spec rest
    simp only [validate_dictionary_is_all_text, firstBadDict, textifyDict, ihd, ihr]
    cases firstBadDict d <;> cases firstBadDict rest <;> rfl
  | (k, .list l) :: rest => by
    have ihl := validate_list_spec l
    have ihr := validate_dict_spec rest
    simp only [validate_dictionary_is_all_text, firstBadDict, textifyDict, ihl, ihr]
    cases firstBadList l <;> cases firstBadDict rest <;> rfl
  | (k, .other ty rep) :: rest => by
    simp only [validate_dictionary_is_all_text, firstBadDict]

end

/-- C9 as stated is false in its error-naming half: a disallowed leaf
inside a list reached from a dictionary raises through
`validate_list_is_all_text`, whose message names only the type and the
value, not the dictionary key. -/
theorem claim_c9_counterexample :
    validate_dictionary_is_all_text [(S "zzz", .list [.other (S "int") (S "7")])]
        = .error (S "Not a str, list, or dict: int: 7") ∧
    hasSub (S "Not a str, list, or dict: int: 7") (S "zzz") = false := by
  constructor
  · simp [validate_dictionary_is_all_text, validate_list_is_all_text]
    decide
  · decide

/-- C9 (amended): each validator either returns the input with every
`NavigableString` leaf converted to a plain string and the list and
mapping structure unchanged (`textifyList` / `textifyDict` are
structure-preserving by construction), or raises a value error for the
first disallowed leaf in traversal order, naming its type and value, and
naming its key only when the leaf is a direct value of a mapping —
list-context errors omit the key. -/
theorem claim_c9_validators :
    (∀ d : List (Str × PyVal),
      validate_dictionary_is_all_text d
        = match firstBadDict d with
          | none => .ok (textifyDict d)
          | some e => .error e) ∧
    (∀ l : List PyVal,
      validate_list_is_all_text l
        = match firstBadList l with
          | none => .ok (textifyList l)
          | some e => .error e) ∧
    validate_dictionary_is_all_text [(S "k", .other (S "int") (S "7"))]
        = .error (S "Not a str: k=" ++ S "k" ++ S " " ++ S "int" ++ S ": " ++ S "7") ∧
    validate_list_is_all_text [.other (S "T1") (S "a"), .other (S "T2") (S "b")]
        = .error (S "Not a str, list, or dict: T1: a") := by
  refine ⟨validate_dict_spec, validate_list_spec, ?_, ?_⟩
  · simp [validate_dictionary_is_all_text]
  · simp [validate_list_is_all_text]
    decide

/-- Witness for C9: a dictionary with a `NavigableString` value validates
to the same dictionary with the leaf converted to a plain string. -/
theorem claim_c9_witness :
    validate_dictionary_is_all_text [(S "k", PyVal.nav (S "v"))]
      = .ok [(S "k", PyVal.str (S "v"))] := by
  have h := claim_c9_validators.1 [(S "k", PyVal.nav (S "v"))]
  simpa [firstBadDict, textifyDict] using h

/-! ### Character facts about the float model -/

theorem digitsVal?_some {l : Str} {n : Nat} (h : digitsVal? l = some n) :
    l ≠ [] ∧ l.all Char.isDigit = true := by
  unfold digitsVal? at h
  by_cases h1 : l = []
  · rw [if_pos h1] at h
    exact Option.noConfusion h
  · rw [if_neg h1] at h
    by_cases h2 : l.all Char.isDigit = true
    · exact ⟨h1, h2⟩
    · rw [if_neg (fun hh => h2 (of_decide_eq_true (decide_eq_true hh)))] at h
      exact Option.noConfusion h

theorem splitFirst?_eq {p : Char → Bool} :
    ∀ {l a b : Str} {ch : Char}, splitFirst? p l = some (a, ch, b) →
      l = a ++ ch :: b ∧ p ch = true := by
  intro l
  induction l with
  | nil => intro a b ch h; exact Option.noConfusion h
  | cons c t ih =>
    intro a b ch h
    unfold splitFirst? at h
    by_cases hp : p c = true
    · rw [if_pos hp] at h
      injection h with h2
      injection h2 with ha h3
      injection h3 with hc hb
      subst ha; subst hc; subst hb
      exact ⟨rfl, hp⟩
    · rw [if_neg hp] at h
      cases hs : splitFirst? p t with
      | none => rw [hs] at h; exact Option.noConfusion h
      | some x =>
        rw [hs] at h
        injection h with h2
        injection h2 with ha h3
        injection h3 with hc hb
        obtain ⟨ht, hpx⟩ := ih hs
        subst ha; subst hc; subst hb
        exact ⟨by rw [ht]; rfl, hpx⟩

theorem mantissa?_chars {l : Str} {x : Nat × Nat} (h : mantissa? l = some x) :
    ∀ c ∈ l, c.isDigit = true ∨ c = '.' := by
  intro c hc
  unfold mantissa? at h
  cases hsp : splitFirst? (· == '.') l with
  | none =>
    rw [hsp] at h
    cases hd : digitsVal? l with
    | none => rw [hd] at h; exact Option.noConfusion h
    | some v =>
      have := (digitsVal?_some hd).2
      exact Or.inl (List.all_eq_true.mp this c hc)
  | some piece =>
    obtain ⟨ip, ch, fp⟩ := piece
    rw [hsp] at h
    dsimp only [] at h
    obtain ⟨hl, hch⟩ := splitFirst?_eq hsp
    have hdot : ch = '.' := by simpa using hch
    subst hdot
    rw [hl] at hc
    by_cases hip : ip = []
    · rw [if_pos hip] at h
      cases hd : digitsVal? fp with
      | none => rw [hd] at h; exact Option.noConfusion h
      | some v =>
        have hall := (digitsVal?_some hd).2
        subst hip
        rcases List.mem_cons.mp hc with hc1 | hc1
        · exact Or.inr hc1
        · exact Or.inl (List.all_eq_true.mp hall c hc1)
    · rw [if_neg hip] at h
      cases hdi : digitsVal? ip with
      | none => rw [hdi] at h; exact Option.noConfusion h
      | some iv =>
        rw [hdi] at h
        dsimp only [] at h
        have hallip := (digitsVal?_some hdi).2
        rcases List.mem_append.mp hc with hc1 | hc1
        · exact Or.inl (List.all_eq_true.mp hallip c hc1)
        · rcases List.mem_cons.mp hc1 with hc2 | hc2
          · exact Or.inr hc2
          · by_cases hfp : fp = []
            · rw [hfp] at hc2; simp at hc2
            · rw [if_neg hfp] at h
              cases hdf : digitsVal? fp with
              | none => rw [hdf] at h; exact Option.noConfusion h
              | some fv =>
                exact Or.inl (List.all_eq_true.mp (digitsVal?_some hdf).2 c hc2)

theorem intVal?_chars {l : Str} {e : Int} (h : intVal? l = some e) :
    ∀ c ∈ l, c.isDigit = true ∨ c = '+' ∨ c = '-' := by
  intro c hc
  unfold intVal? at h
  cases l with
  | nil => exact Option.noConfusion h
  | cons c0 t =>
    dsimp only [] at h
    by_cases h1 : c0 = '+'
    · rw [if_pos h1] at h
      cases hd : digitsVal? t with
      | none => rw [hd] at h; exact Option.noConfusion h
      | some v =>
        rcases List.mem_cons.mp hc with hc1 | hc1
        · exact Or.inr (Or.inl (hc1.trans h1))
        · exact Or.inl (List.all_eq_true.mp (digitsVal?_some hd).2 c hc1)
    · rw [if_neg h1] at h
      by_cases h2 : c0 = '-'
      · rw [if_pos h2] at h
        cases hd : digitsVal? t with
        | none => rw [hd] at h; exact Option.noConfusion h
        | some v =>
          rcases List.mem_cons.mp hc with hc1 | hc1
          · exact Or.inr (Or.inr (hc1.trans h2))
          · exact Or.inl (List.all_eq_true.mp (digitsVal?_some hd).2 c hc1)
      · rw [if_neg h2] at h
        cases hd : digitsVal? (c0 :: t) with
        | none => rw [hd] at h; exact Option.noConfusion h
        | some v =>
          exact Or.inl (List.all_eq_true.mp (digitsVal?_some hd).2 c hc)

theorem pyFloatBody_no_slash {neg : Bool} {v : Str} {pv : PyFloat}
    (h : pyFloatBody neg v = some pv) : '/' ∉ v := by
  intro hc
  unfold pyFloatBody at h
  by_cases h1 : v.map Char.toLower = S "inf" ∨ v.map Char.toLower = S "infinity"
  · have hm : '/' ∈ v.map Char.toLower := by
      have h2 := List.mem_map_of_mem Char.toLower hc
      simpa using h2
    rcases h1 with h1 | h1 <;> rw [h1] at hm <;> exact absurd hm (by decide)
  · rw [if_neg h1] at h
    by_cases h2 : v.map Char.toLower = S "nan"
    · have hm : '/' ∈ v.map Char.toLower := by
        have h3 := List.mem_map_of_mem Char.toLower hc
        simpa using h3
      rw [h2] at hm
      exact absurd hm (by decide)
    · rw [if_neg h2] at h
      cases hsp : splitFirst? (fun c => c == 'e' || c == 'E') v with
      | none =>
        rw [hsp] at h
        cases hm : mantissa? v with
        | none => rw [hm] at h; exact Option.noConfusion h
        | some x =>
          rcases mantissa?_chars hm '/' hc with hd | hd
          · exact absurd hd (by decide)
          · exact absurd hd (by decide)
      | some piece =>
        obtain ⟨m, ch, ex⟩ := piece
        rw [hsp] at h
        dsimp only [] at h
        obtain ⟨hl, hch⟩ := splitFirst?_eq hsp
        rw [hl] at hc
        rcases List.mem_append.mp hc with hc1 | hc1
        · cases hmm : mantissa? m with
          | none => rw [hmm] at h; exact Option.noConfusion h
          | some x =>
            rcases mantissa?_chars hmm '/' hc1 with hd | hd
            · exact absurd hd (by decide)
            · exact absurd hd (by decide)
        · rcases List.mem_cons.mp hc1 with hc2 | hc2
          · rw [← hc2] at hch
            exact absurd hch (by decide)
          · cases hmm : mantissa? m with
            | none => rw [hmm] at h; exact Option.noConfusion h
            | some x =>
              rw [hmm] at h
              dsimp only [] at h
              cases hiv : intVal? ex with
              | none => rw [hiv] at h; exact Option.noConfusion h
              | some e =>
                rcases intVal?_chars hiv '/' hc2 with hd | hd | hd
                · exact absurd hd (by decide)
                · exact absurd hd (by decide)
                · exact absurd hd (by decide)

theorem pyFloatCore_no_slash {u : Str} {pv : PyFloat}
    (h : pyFloatCore u = some pv) : '/' ∉ u := by
  intro hc
  unfold pyFloatCore at h
  cases u with
  | nil => simp at hc
  | cons c0 t =>
    dsimp only [] at h
    by_cases h1 : c0 = '+'
    · rw [if_pos h1] at h
      rcases List.mem_cons.mp hc with hc1 | hc1
      · rw [h1] at hc1; exact absurd hc1 (by decide)
      · exact pyFloatBody_no_slash h hc1
    · rw [if_neg h1] at h
      by_cases h2 : c0 = '-'
      · rw [if_pos h2] at h
        rcases List.mem_cons.mp hc with hc1 | hc1
        · rw [h2] at hc1; exact absurd hc1 (by decide)
        · exact pyFloatBody_no_slash h hc1
      · rw [if_neg h2] at h
        exact pyFloatBody_no_slash h hc

theorem mem_stripWs_or {t : Str} {c : Char} (h : c ∈ t) :
    pyWs c = true ∨ c ∈ stripWs t := by
  have ht : t = t.takeWhile pyWs ++ t.dropWhile pyWs :=
    (List.takeWhile_append_dropWhile pyWs t).symm
  rw [ht] at h
  rcases List.mem_append.mp h with h1 | h1
  · exact Or.inl (List.mem_takeWhile_imp h1)
  · have h2 : c ∈ (t.dropWhile pyWs).reverse := List.mem_reverse.mpr h1
    have hd : (t.dropWhile pyWs).reverse
        = ((t.dropWhile pyWs).reverse.takeWhile pyWs)
          ++ ((t.dropWhile pyWs).reverse.dropWhile pyWs) :=
      (List.takeWhile_append_dropWhile pyWs (t.dropWhile pyWs).reverse).symm
    rw [hd] at h2
    rcases List.mem_append.mp h2 with h3 | h3
    · exact Or.inl (List.mem_takeWhile_imp h3)
    · exact Or.inr (List.mem_reverse.mpr h3)

theorem pyFloat_ver_facts {t : Str} {v : PyFloat} (h : pyFloat? t = some v) :
    '/' ∉ t ∧ t ≠ [] := by
  constructor
  · intro hc
    rcases mem_stripWs_or hc with h1 | h1
    · exact absurd h1 (by decide)
    · exact pyFloatCore_no_slash h h1
  · intro ht
    rw [ht] at h
    rw [show pyFloat? [] = none from by decide] at h
    exact Option.noConfusion h

/-! ### Jurisdiction segment in the assembled URL -/

theorem S_slash : S "/" = ['/'] := rfl

theorem strEnds_slash_append {x y : Str} (hy : y ≠ []) :
    strEnds (x ++ y) (S "/") = strEnds y (S "/") := by
  rw [S_slash]
  exact strEnds_append_right hy '/'

theorem strEnds_slash_of_not_mem {y : Str} (hy : y ≠ []) (h : '/' ∉ y) :
    strEnds y (S "/") = false := by
  rw [S_slash]
  exact strEnds_not_mem hy h

theorem pjoin_no_abs_shape {a b : Str} (hb : strStarts b (S "/") = false) :
    ∃ z : Str, pjoin a b = z ++ b := by
  unfold pjoin
  rw [if_neg (fun hh => Bool.noConfusion (hb ▸ hh))]
  by_cases h2 : a = [] ∨ strEnds a (S "/") = true
  · rw [if_pos h2]
    exact ⟨a, rfl⟩
  · rw [if_neg h2]
    exact ⟨a ++ ['/'], by rw [List.append_cons]⟩

theorem hasSub_append_starts {a x p : Str} (h : strStarts x p = true) :
    hasSub (a ++ x) p = true :=
  hasSub_append_right a (hasSub_of_starts h)

theorem legalcodeUrl_hasSub_jur {pb lcu ver j : Str} {lang : Option Str}
    (hver : '/' ∉ ver) (hvne : ver ≠ []) (hj : '/' ∉ j) (hjne : j ≠ []) :
    hasSub (legalcodeUrl pb lcu ver (some j) lang) ('/' :: (j ++ ['/'])) = true := by
  unfold legalcodeUrl
  obtain ⟨z, hz⟩ := @pjoin_no_abs_shape
    (pjoin (pjoin (S "http://creativecommons.org") pb) lcu) ver
    (strStarts_not_mem hver)
  rw [hz]
  have he2 : strEnds (z ++ ver) (S "/") = false := by
    rw [strEnds_slash_append hvne]
    exact strEnds_slash_of_not_mem hvne hver
  have hne2 : z ++ ver ≠ [] := by
    intro hh
    exact hvne (List.append_eq_nil.mp hh).2
  simp only [if_neg hjne]
  rw [pjoin_cons (strStarts_not_mem hj) hne2 he2]
  rcases lang with _ | l
  · rw [List.append_assoc]
    refine hasSub_append_starts ?_
    show strStarts ('/' :: (j ++ ['/'])) ('/' :: (j ++ ['/'])) = true
    exact strStarts_refl _
  · dsimp only []
    by_cases hl : l = []
    · rw [if_pos hl, List.append_assoc]
      refine hasSub_append_starts ?_
      show strStarts ('/' :: (j ++ ['/'])) ('/' :: (j ++ ['/'])) = true
      exact strStarts_refl _
    · rw [if_neg hl]
      have he3 : strEnds ((z ++ ver) ++ '/' :: j) (S "/") = false := by
        rw [List.append_cons, strEnds_slash_append hjne]
        exact strEnds_slash_of_not_mem hjne hj
      have hne3 : (z ++ ver) ++ '/' :: j ≠ [] := by
        intro hh
        exact List.cons_ne_nil '/' j (List.append_eq_nil.mp hh).2
      rw [pjoin_cons (by rfl) hne3 he3, List.append_assoc]
      refine hasSub_append_starts ?_
      show strStarts ('/' :: (j ++ '/' :: (S "legalcode." ++ l)))
        ('/' :: (j ++ ['/'])) = true
      simp only [strStarts, Bool.and_eq_true, beq_self_eq_true, true_and]
      rw [List.append_cons j '/' (S "legalcode." ++ l)]
      exact strStarts_append_self _ _

/-! ### Claim C6: jurisdiction consumption -/

/-- C6 as stated is false: the claimed equivalence fails for zero-family
filenames, whose branch never consumes a jurisdiction even when further
segments exist and the version is below 4.0 — `zero_1.0_xx.html` has
three segments and version 1.0 < 4.0 yet yields an empty
jurisdiction_code, with `xx` taken as the language instead. -/
theorem claim_c6_counterexample :
    (parse_legalcode_filename (S "zero_1.0_xx.html")).map (·.jurisdiction_code)
        = some [] ∧
    (parse_legalcode_filename (S "zero_1.0_xx.html")).map (·.language_code)
        = some (S "xx") ∧
    (pyFloat? (S "1.0")).map pyFloatLtFour = some true :=
  ⟨by decide, by decide, by decide⟩

/-- C6 (amended): outside the zero branch, a jurisdiction segment is
consumed if and only if segments remain after the license and version
tokens and the version parses as a float strictly below 4.0; the next
remaining segment, if any, becomes the language code.  In the zero
branch the jurisdiction is never consumed.  Three-segment-plus non-zero
inputs with version < 4.0 get the third token as jurisdiction_code, and
when that token is non-empty and slash-free the url contains it as a
path segment; `by_3.0_nl_legalcode.html` evaluates accordingly. -/
theorem claim_c6_jurisdiction_consumption :
    (∀ (f lic0 ver j : Str) (rest' : List Str) (r : LicenseData) (v : PyFloat),
      splitC '_' (stripHtml f) = lic0 :: ver :: j :: rest' →
      strStarts lic0 (S "zero") = false →
      pyFloat? ver = some v →
      parse_legalcode_filename f = some r →
      r.jurisdiction_code = (if pyFloatLtFour v = true then j else []) ∧
      r.language_code
        = (if pyFloatLtFour v = true then (rest'.head?).getD [] else j)) ∧
    (∀ (f lic0 ver : Str) (r : LicenseData),
      splitC '_' (stripHtml f) = [lic0, ver] →
      parse_legalcode_filename f = some r →
      r.jurisdiction_code = [] ∧ r.language_code = []) ∧
    (∀ (f lic0 ver : Str) (rest : List Str) (r : LicenseData),
      splitC '_' (stripHtml f) = lic0 :: ver :: rest →
      strStarts lic0 (S "zero") = true →
      parse_legalcode_filename f = some r →
      r.jurisdiction_code = []) ∧
    (∀ (f lic0 ver j : Str) (rest' : List Str) (r : LicenseData) (v : PyFloat),
      splitC '_' (stripHtml f) = lic0 :: ver :: j :: rest' →
      strStarts lic0 (S "zero") = false →
      pyFloat? ver = some v →
      pyFloatLtFour v = true →
      parse_legalcode_filename f = some r →
      j ≠ [] → '/' ∉ j →
      hasSub r.url ('/' :: (j ++ ['/'])) = true) ∧
    (parse_legalcode_filename (S "by_3.0_nl_legalcode.html")).map
        (·.jurisdiction_code) = some (S "nl") ∧
    (parse_legalcode_filename (S "by_3.0_nl_legalcode.html")).map
        (fun d => hasSub d.url (S "/nl/")) = some true := by
  refine ⟨?_, ?_, ?_, ?_, by decide, by decide⟩
  · intro f lic0 ver j rest' r v hs hz hf hp
    have hz2 : strStarts (remapLicense lic0) (S "zero") = false := by
      rw [zeroStarts_remap]; exact hz
    cases hlt : pyFloatLtFour v with
    | true =>
      rw [parse_nonzero_lt hs hz2 hf hlt] at hp
      injection hp with h
      rw [← h, if_pos rfl, if_pos rfl]
      exact ⟨rfl, rfl⟩
    | false =>
      rw [parse_nonzero_ge hs hz2 hf hlt] at hp
      injection hp with h
      rw [← h, if_neg (fun hh => Bool.noConfusion hh),
        if_neg (fun hh => Bool.noConfusion hh)]
      exact ⟨rfl, rfl⟩
  · intro f lic0 ver r hs hp
    by_cases hz : strStarts (remapLicense lic0) (S "zero") = true
    · rw [parse_zero hs hz] at hp
      injection hp with h
      rw [← h]
      exact ⟨rfl, rfl⟩
    · have hz2 : strStarts (remapLicense lic0) (S "zero") = false :=
        Bool.not_eq_true _ ▸ hz
      rw [parse_nonzero_nil hs hz2] at hp
      injection hp with h
      rw [← h]
      exact ⟨rfl, rfl⟩
  · intro f lic0 ver rest r hs hz hp
    have hz2 : strStarts (remapLicense lic0) (S "zero") = true := by
      rw [zeroStarts_remap]; exact hz
    rw [parse_zero hs hz2] at hp
    injection hp with h
    rw [← h]
    rfl
  · intro f lic0 ver j rest' r v hs hz hf hlt hp hjne hj
    have hz2 : strStarts (remapLicense lic0) (S "zero") = false := by
      rw [zeroStarts_remap]; exact hz
    rw [parse_nonzero_lt hs hz2 hf hlt] at hp
    injection hp with h
    rw [← h]
    obtain ⟨hver, hvne⟩ := pyFloat_ver_facts hf
    exact legalcodeUrl_hasSub_jur hver hvne hj hjne

/-- Witness for C6 at `by_3.5_de.html`: version 3.5 < 4.0 consumes the
jurisdiction token `de`. -/
theorem claim_c6_witness :
    (mkLicenseData (S "by") (S "licenses") (S "by") (S "3.5") (some (S "de"))
      []).jurisdiction_code = S "de" := by
  have h := claim_c6_jurisdiction_consumption.1 (S "by_3.5_de.html") (S "by")
    (S "3.5") (S "de") []
    (mkLicenseData (S "by") (S "licenses") (S "by") (S "3.5") (some (S "de")) [])
    (PyFloat.finite (mkRat 7 2)) (by decide) (by decide) (by decide) (by decide)
  rw [h.1]
  decide

/-! ### Shape of the assembled legal-code URL -/

theorem legalcodeUrl_shape {pb lcu ver : Str} {jur lang : Option Str}
    (hv : '/' ∉ ver) (hvne : ver ≠ [])
    (hj : ∀ j0, jur = some j0 → '/' ∉ j0) :
    ∃ t : Str,
      legalcodeUrl pb lcu ver jur lang
        = pjoin (pjoin (pjoin (S "http://creativecommons.org") pb) lcu) ver
            ++ '/' :: t ∧
      (∀ j0, jur = some j0 → j0 ≠ [] → ∃ u : Str, t = j0 ++ '/' :: u) := by
  obtain ⟨z, hz⟩ := @pjoin_no_abs_shape
    (pjoin (pjoin (S "http://creativecommons.org") pb) lcu) ver
    (strStarts_not_mem hv)
  have hend : strEnds
      (pjoin (pjoin (pjoin (S "http://creativecommons.org") pb) lcu) ver)
      (S "/") = false := by
    rw [hz, strEnds_slash_append hvne]
    exact strEnds_slash_of_not_mem hvne hv
  have hne : pjoin (pjoin (pjoin (S "http://creativecommons.org") pb) lcu) ver
      ≠ [] := by
    rw [hz]
    intro hh
    exact hvne (List.append_eq_nil.mp hh).2
  unfold legalcodeUrl
  rcases jur with _ | j
  · rcases lang with _ | l
    · exact ⟨[], rfl, fun j0 hj0 => Option.noConfusion hj0⟩
    · dsimp only []
      by_cases hl : l = []
      · rw [if_pos hl]
        exact ⟨[], rfl, fun j0 hj0 => Option.noConfusion hj0⟩
      · rw [if_neg hl, pjoin_cons (by rfl) hne hend]
        exact ⟨S "legalcode." ++ l, rfl, fun j0 hj0 => Option.noConfusion hj0⟩
  · dsimp only []
    by_cases hjj : j = []
    · rw [if_pos hjj]
      rcases lang with _ | l
      · exact ⟨[], rfl, fun j0 hj0 hne0 => absurd (by injection hj0; simp_all) hne0⟩
      · dsimp only []
        by_cases hl : l = []
        · rw [if_pos hl]
          exact ⟨[], rfl, fun j0 hj0 hne0 => absurd (by injection hj0; simp_all) hne0⟩
        · rw [if_neg hl, pjoin_cons (by rfl) hne hend]
          exact ⟨S "legalcode." ++ l, rfl,
            fun j0 hj0 hne0 => absurd (by injection hj0; simp_all) hne0⟩
    · rw [if_neg hjj, pjoin_cons (strStarts_not_mem (hj j rfl)) hne hend]
      have hend3 : strEnds
          ((pjoin (pjoin (pjoin (S "http://creativecommons.org") pb) lcu) ver)
            ++ '/' :: j) (S "/") = false := by
        rw [List.append_cons, strEnds_slash_append hjj]
        exact strEnds_slash_of_not_mem hjj (hj j rfl)
      have hne3 : (pjoin (pjoin (pjoin (S "http://creativecommons.org") pb) lcu) ver)
          ++ '/' :: j ≠ [] := by
        intro hh
        exact List.cons_ne_nil '/' j (List.append_eq_nil.mp hh).2
      rcases lang with _ | l
      · refine ⟨j ++ ['/'], by simp [List.append_assoc], ?_⟩
        intro j0 hj0 _
        injection hj0 with hj0
        exact ⟨[], by rw [← hj0]⟩
      · dsimp only []
        by_cases hl : l = []
        · rw [if_pos hl]
          refine ⟨j ++ ['/'], by simp [List.append_assoc], ?_⟩
          intro j0 hj0 _
          injection hj0 with hj0
          exact ⟨[], by rw [← hj0]⟩
        · rw [if_neg hl, pjoin_cons (by rfl) hne3 hend3]
          refine ⟨j ++ '/' :: (S "legalcode." ++ l), by simp [List.append_assoc], ?_⟩
          intro j0 hj0 _
          injection hj0 with hj0
          exact ⟨S "legalcode." ++ l, by rw [← hj0]⟩

theorem url2_eq_licenses {lic ver : Str} (hl : '/' ∉ lic) (hlne : lic ≠ [])
    (hv : '/' ∉ ver) :
    pjoin (pjoin (pjoin (S "http://creativecommons.org") (S "licenses")) lic) ver
      = S "http://creativecommons.org/licenses/" ++ (lic ++ '/' :: ver) := by
  rw [url1_licenses (strStarts_not_mem hl)]
  rw [pjoin_cons (strStarts_not_mem hv)
    (fun hh => absurd (List.append_eq_nil.mp hh).2 hlne)
    (by rw [strEnds_slash_append hlne]; exact strEnds_slash_of_not_mem hlne hl)]
  rw [List.append_assoc]

theorem url2_eq_publicdomain {lic ver : Str} (hl : '/' ∉ lic) (hlne : lic ≠ [])
    (hv : '/' ∉ ver) :
    pjoin (pjoin (pjoin (S "http://creativecommons.org") (S "publicdomain")) lic) ver
      = S "http://creativecommons.org/publicdomain/" ++ (lic ++ '/' :: ver) := by
  rw [url1_publicdomain (strStarts_not_mem hl)]
  rw [pjoin_cons (strStarts_not_mem hv)
    (fun hh => absurd (List.append_eq_nil.mp hh).2 hlne)
    (by rw [strEnds_slash_append hlne]; exact strEnds_slash_of_not_mem hlne hl)]
  rw [List.append_assoc]

/-! ### Explicit forms of the about URL per branch -/

theorem about_BSD_MIT {code : Str} (h : code = S "BSD" ∨ code = S "MIT")
    (ver jur : Str) :
    compute_about_url code ver jur
      = S "http://creativecommons.org/licenses/" ++ code ++ ['/'] := by
  simp only [compute_about_url]
  rw [if_pos h]
  rw [show S "http://creativecommons.org" ++ S "/licenses/"
    = S "http://creativecommons.org/licenses/" from by decide]
  rw [S_slash]

theorem about_GPL {code : Str} (h : hasSub code (S "GPL") = true) (ver jur : Str) :
    compute_about_url code ver jur
      = S "http://creativecommons.org/licenses/" ++ (code ++ '/' :: ver) ++ ['/'] := by
  have h1 : code ≠ S "BSD" := by
    intro he; rw [he] at h; exact absurd h (by decide)
  have h2 : code ≠ S "MIT" := by
    intro he; rw [he] at h; exact absurd h (by decide)
  simp only [compute_about_url]
  rw [if_neg (not_or.mpr ⟨h1, h2⟩), if_pos h]
  rw [show S "http://creativecommons.org" ++ S "/licenses/"
    = S "http://creativecommons.org/licenses/" from by decide]
  simp [List.append_assoc, S_slash]

theorem about_licenses_nojur {code ver : Str}
    (h1 : code ≠ S "BSD") (h2 : code ≠ S "MIT") (h3 : hasSub code (S "GPL") = false)
    (h4 : code ≠ S "CC0") (h5 : code ≠ S "zero") (h6 : code ≠ S "mark") :
    compute_about_url code ver []
      = S "http://creativecommons.org/licenses/" ++ (code ++ '/' :: ver) ++ ['/'] := by
  simp only [compute_about_url]
  rw [if_neg (not_or.mpr ⟨h1, h2⟩), if_neg (fun hh => Bool.noConfusion (h3 ▸ hh)),
    if_neg (not_or.mpr ⟨h4, not_or.mpr ⟨h5, h6⟩⟩)]
  simp only [if_true]
  rw [show ((S "http://creativecommons.org" ++ S "/") ++ S "licenses") ++ S "/"
    = S "http://creativecommons.org/licenses/" from by decide]
  simp [List.append_assoc, S_slash]

theorem about_licenses_jur {code ver jur : Str}
    (h1 : code ≠ S "BSD") (h2 : code ≠ S "MIT") (h3 : hasSub code (S "GPL") = false)
    (h4 : code ≠ S "CC0") (h5 : code ≠ S "zero") (h6 : code ≠ S "mark")
    (hj : jur ≠ []) :
    compute_about_url code ver jur
      = S "http://creativecommons.org/licenses/" ++ (code ++ '/' :: ver)
          ++ '/' :: (jur ++ ['/']) := by
  simp only [compute_about_url]
  rw [if_neg (not_or.mpr ⟨h1, h2⟩), if_neg (fun hh => Bool.noConfusion (h3 ▸ hh)),
    if_neg (not_or.mpr ⟨h4, not_or.mpr ⟨h5, h6⟩⟩), if_neg hj]
  rw [show ((S "http://creativecommons.org" ++ S "/") ++ S "licenses") ++ S "/"
    = S "http://creativecommons.org/licenses/" from by decide]
  simp [List.append_assoc, S_slash]

theorem about_zero_pd (ver : Str) :
    compute_about_url (S "zero") ver []
      = S "http://creativecommons.org/publicdomain/" ++ (S "zero" ++ '/' :: ver)
          ++ ['/'] := by
  simp only [compute_about_url]
  rw [if_neg (by decide), if_neg (by decide)]
  simp only [true_or, or_true, if_true]
  rw [show ((S "http://creativecommons.org" ++ S "/") ++ S "publicdomain") ++ S "/"
    = S "http://creativecommons.org/publicdomain/" from by decide]
  simp [List.append_assoc, S_slash]

theorem hasSub_nil_legalcode : hasSub [] (S "legalcode") = false := by decide

/-- No `legalcode` substring in an about URL whose code, version and
jurisdiction are `legalcode`-free: the URL is a slash-separated chain of
`legalcode`-free pieces, and the pattern contains no slash, so any
occurrence would lie inside a single piece. -/
theorem about_no_legalcode {code ver jur : Str}
    (hc : hasSub code (S "legalcode") = false)
    (hv : hasSub ver (S "legalcode") = false)
    (hj : hasSub jur (S "legalcode") = false) :
    hasSub (compute_about_url code ver jur) (S "legalcode") = false := by
  have hnm : '/' ∉ S "legalcode" := by decide
  have hfalse : ∀ x : Str, hasSub x (S "legalcode") = false →
      hasSub x (S "legalcode") = true → False := by
    intro x h1 h2
    rw [h1] at h2
    exact Bool.noConfusion h2
  by_cases h1 : code = S "BSD" ∨ code = S "MIT"
  · rw [about_BSD_MIT h1 ver jur]
    by_contra hcon
    have h' := Bool.not_eq_false _ ▸ hcon
    rw [show S "http://creativecommons.org/licenses/"
      = S "http://creativecommons.org/licenses" ++ ['/'] from by decide] at h'
    simp only [List.append_assoc, List.cons_append, List.singleton_append,
      List.nil_append] at h'
    rcases hasSub_sep_split hnm h' with h2 | h2
    · exact absurd h2 (by decide)
    · rcases hasSub_sep_split hnm h2 with h3 | h3
      · exact hfalse _ hc h3
      · exact absurd h3 (by decide)
  · by_cases h2 : hasSub code (S "GPL") = true
    · rw [about_GPL h2 ver jur]
      by_contra hcon
      have h' := Bool.not_eq_false _ ▸ hcon
      rw [show S "http://creativecommons.org/licenses/"
        = S "http://creativecommons.org/licenses" ++ ['/'] from by decide] at h'
      simp only [List.append_assoc, List.cons_append, List.singleton_append,
        List.nil_append] at h'
      rcases hasSub_sep_split hnm h' with h3 | h3
      · exact absurd h3 (by decide)
      · rcases hasSub_sep_split hnm h3 with h4 | h4
        · exact hfalse _ hc h4
        · rcases hasSub_sep_split hnm h4 with h5 | h5
          · exact hfalse _ hv h5
          · exact absurd h5 (by decide)
    · have h2f : hasSub code (S "GPL") = false := Bool.not_eq_true _ ▸ h2
      have hno : ∀ pfx : Str,
          hasSub pfx (S "legalcode") = false →
          hasSub ((S "http://creativecommons.org" ++ S "/" ++ pfx ++ S "/" ++ code
            ++ S "/" ++ ver ++ S "/")
            ++ (if jur = [] then [] else jur ++ S "/")) (S "legalcode") = false := by
        intro pfx hpfx
        by_contra hcon
        have h' := Bool.not_eq_false _ ▸ hcon
        rw [show S "http://creativecommons.org" ++ S "/"
          = S "http://creativecommons.org" ++ ['/'] from by decide] at h'
        simp only [List.append_assoc, List.cons_append, List.singleton_append,
          List.nil_append, S_slash] at h'
        rcases hasSub_sep_split hnm h' with h3 | h3
        · exact absurd h3 (by decide)
        · rcases hasSub_sep_split hnm h3 with h4 | h4
          · exact hfalse _ hpfx h4
          · rcases hasSub_sep_split hnm h4 with h5 | h5
            · exact hfalse _ hc h5
            · rcases hasSub_sep_split hnm h5 with h6 | h6
              · exact hfalse _ hv h6
              · by_cases hjj : jur = []
                · rw [if_pos hjj] at h6
                  exact absurd h6 (by decide)
                · rw [if_neg hjj] at h6
                  rcases hasSub_sep_split hnm h6 with h7 | h7
                  · exact hfalse _ hj h7
                  · exact absurd h7 (by decide)
      simp only [compute_about_url]
      rw [if_neg h1, if_neg (fun hh => Bool.noConfusion (h2f ▸ hh))]
      by_cases h3 : code = S "CC0" ∨ code = S "zero" ∨ code = S "mark"
      · rw [if_pos h3]
        by_cases hjj : jur = []
        · rw [if_pos hjj]
          have := hno (S "publicdomain") (by decide)
          rw [if_pos hjj] at this
          simpa using this
        · rw [if_neg hjj]
          have := hno (S "publicdomain") (by decide)
          rw [if_neg hjj] at this
          simpa [List.append_assoc] using this
      · rw [if_neg h3]
        by_cases hjj : jur = []
        · rw [if_pos hjj]
          have := hno (S "licenses") (by decide)
          rw [if_pos hjj] at this
          simpa using this
        · rw [if_neg hjj]
          have := hno (S "licenses") (by decide)
          rw [if_neg hjj] at this
          simpa [List.append_assoc] using this

theorem remap_ne_nil {l : Str} (h : l ≠ []) : remapLicense l ≠ [] := by
  unfold remapLicense
  by_cases h1 : l = S "samplingplus"
  · rw [if_pos h1]; decide
  · rw [if_neg h1]
    by_cases h2 : l = S "nc-samplingplus"
    · rw [if_pos h2]; decide
    · rw [if_neg h2]; exact h

theorem remap_slash_not_mem {l : Str} (h : '/' ∉ l) : '/' ∉ remapLicense l := by
  unfold remapLicense
  by_cases h1 : l = S "samplingplus"
  · rw [if_pos h1]; decide
  · rw [if_neg h1]
    by_cases h2 : l = S "nc-samplingplus"
    · rw [if_pos h2]; decide
    · rw [if_neg h2]; exact h

theorem remap_legalcode {l : Str} (h : hasSub l (S "legalcode") = false) :
    hasSub (remapLicense l) (S "legalcode") = false := by
  unfold remapLicense
  by_cases h1 : l = S "samplingplus"
  · rw [if_pos h1]; decide
  · rw [if_neg h1]
    by_cases h2 : l = S "nc-samplingplus"
    · rw [if_pos h2]; decide
    · rw [if_neg h2]; exact h

theorem remap_ne {l x : Str} (hl : l ≠ x) (h1 : S "sampling+" ≠ x)
    (h2 : S "nc-sampling+" ≠ x) : remapLicense l ≠ x := by
  unfold remapLicense
  by_cases ha : l = S "samplingplus"
  · rw [if_pos ha]; exact h1
  · rw [if_neg ha]
    by_cases hb : l = S "nc-samplingplus"
    · rw [if_pos hb]; exact h2
    · rw [if_neg hb]; exact hl

/-! ### Claim C3: invariants of the about URL -/

/-- C3 as stated is false in both halves.  `zero_legalcode.html` parses
(its version token is never float-checked in the zero branch) and its
about URL contains a `legalcode` segment; `mark_1.0.html` parses with a
`licenses` url but a `publicdomain` about URL, so the about URL (and a
fortiori its path) is not a prefix of the url at all; and for
`by-nc-nd_4.0.html` url and about URL are equal, so nothing is a strict
prefix. -/
theorem claim_c3_counterexample :
    (parse_legalcode_filename (S "zero_legalcode.html")).map
        (fun d => hasSub d.about_url (S "legalcode")) = some true ∧
    (parse_legalcode_filename (S "mark_1.0.html")).map
        (fun d => strStarts d.url d.about_url) = some false ∧
    (parse_legalcode_filename (S "by-nc-nd_4.0.html")).map (·.url)
        = (parse_legalcode_filename (S "by-nc-nd_4.0.html")).map (·.about_url) :=
  ⟨by decide, by decide, by decide⟩

/-- C3 (amended): for every successful parse of a filename whose license
token is non-empty, not `CC0` or `mark`, equal to `zero` whenever it
starts with `zero`, whose license and version tokens and first remaining
token are slash-free and contain no `legalcode`, and whose version token
is non-empty: the about URL is computed from the license, version and
jurisdiction only (never the language), contains no `legalcode`
substring, and is a — not necessarily strict — prefix of the legal-code
url. -/
theorem claim_c3_about_url_invariants :
    ∀ (f lic0 ver : Str) (rest : List Str) (r : LicenseData),
      splitC '_' (stripHtml f) = lic0 :: ver :: rest →
      parse_legalcode_filename f = some r →
      lic0 ≠ [] → ver ≠ [] →
      '/' ∉ lic0 → '/' ∉ ver → '/' ∉ (rest.head?).getD [] →
      (strStarts lic0 (S "zero") = true → lic0 = S "zero") →
      lic0 ≠ S "CC0" → lic0 ≠ S "mark" →
      hasSub lic0 (S "legalcode") = false →
      hasSub ver (S "legalcode") = false →
      hasSub ((rest.head?).getD []) (S "legalcode") = false →
      r.about_url = compute_about_url (remapLicense lic0) ver r.jurisdiction_code ∧
      hasSub r.about_url (S "legalcode") = false ∧
      strStarts r.url r.about_url = true := by
  intro f lic0 ver rest r hs hp hlne hvne hsl hsv hsj hzeq hncc0 hnmark hlc0 hlcv hlcj
  by_cases hz : strStarts (remapLicense lic0) (S "zero") = true
  · have hz0 : strStarts lic0 (S "zero") = true := by
      rw [← zeroStarts_remap]; exact hz
    have hl0 : lic0 = S "zero" := hzeq hz0
    subst hl0
    have hrm : remapLicense (S "zero") = S "zero" := by decide
    rw [parse_zero hs hz] at hp
    injection hp with h
    subst h
    refine ⟨rfl, ?_, ?_⟩
    · show hasSub (compute_about_url (remapLicense (S "zero")) ver
        ((none : Option Str).getD [])) (S "legalcode") = false
      rw [hrm]
      exact about_no_legalcode (by decide) hlcv (by decide)
    · show strStarts
        (legalcodeUrl (S "publicdomain") (remapLicense (S "zero")) ver none rest.head?)
        (compute_about_url (remapLicense (S "zero")) ver
          ((none : Option Str).getD [])) = true
      rw [hrm]
      obtain ⟨t, ht, -⟩ :=
        @legalcodeUrl_shape (S "publicdomain") (S "zero") ver none rest.head? hsv hvne
          (fun j0 hj0 => Option.noConfusion hj0)
      rw [ht, url2_eq_publicdomain (by decide) (by decide) hsv]
      show strStarts _ (compute_about_url (S "zero") ver []) = true
      rw [about_zero_pd]
      refine strStarts_iff.mpr ⟨t, ?_⟩
      simp [List.append_assoc]
  · have hz2 : strStarts (remapLicense lic0) (S "zero") = false :=
      Bool.not_eq_true _ ▸ hz
    have hlic_ne : remapLicense lic0 ≠ [] := remap_ne_nil hlne
    have hlic_sl : '/' ∉ remapLicense lic0 := remap_slash_not_mem hsl
    have hlic_lc : hasSub (remapLicense lic0) (S "legalcode") = false :=
      remap_legalcode hlc0
    have hlic_cc0 : remapLicense lic0 ≠ S "CC0" :=
      remap_ne hncc0 (by decide) (by decide)
    have hlic_mark : remapLicense lic0 ≠ S "mark" :=
      remap_ne hnmark (by decide) (by decide)
    have hlic_zero : remapLicense lic0 ≠ S "zero" := by
      intro he
      rw [he] at hz2
      exact absurd hz2 (by decide)
    have hurl2 := url2_eq_licenses hlic_sl hlic_ne hsv
    have main : ∀ (jur : Option Str) (parts : List Str),
        (∀ j0, jur = some j0 → '/' ∉ j0) →
        (∀ j0, jur = some j0 → hasSub j0 (S "legalcode") = false) →
        (mkLicenseData (remapLicense lic0) (S "licenses") (remapLicense lic0) ver
          jur parts).about_url
          = compute_about_url (remapLicense lic0) ver
              (mkLicenseData (remapLicense lic0) (S "licenses") (remapLicense lic0)
                ver jur parts).jurisdiction_code ∧
        hasSub (mkLicenseData (remapLicense lic0) (S "licenses") (remapLicense lic0)
          ver jur parts).about_url (S "legalcode") = false ∧
        strStarts (mkLicenseData (remapLicense lic0) (S "licenses")
          (remapLicense lic0) ver jur parts).url
          (mkLicenseData (remapLicense lic0) (S "licenses") (remapLicense lic0) ver
            jur parts).about_url = true := by
      intro jur parts hjsl hjlc
      refine ⟨rfl, ?_, ?_⟩
      · show hasSub (compute_about_url (remapLicense lic0) ver (jur.getD []))
          (S "legalcode") = false
        rcases jur with _ | j
        · exact about_no_legalcode hlic_lc hlcv (by decide)
        · exact about_no_legalcode hlic_lc hlcv (hjlc j rfl)
      · show strStarts
          (legalcodeUrl (S "licenses") (remapLicense lic0) ver jur parts.head?)
          (compute_about_url (remapLicense lic0) ver (jur.getD [])) = true
        obtain ⟨t, ht, hjt⟩ :=
          @legalcodeUrl_shape (S "licenses") (remapLicense lic0) ver jur parts.head?
            hsv hvne hjsl
        rw [ht, hurl2]
        by_cases hbsd : remapLicense lic0 = S "BSD" ∨ remapLicense lic0 = S "MIT"
        · rw [about_BSD_MIT hbsd]
          refine strStarts_iff.mpr ⟨ver ++ '/' :: t, ?_⟩
          simp [List.append_assoc]
        · by_cases hgpl : hasSub (remapLicense lic0) (S "GPL") = true
          · rw [about_GPL hgpl]
            refine strStarts_iff.mpr ⟨t, ?_⟩
            simp [List.append_assoc]
          · have hgplf : hasSub (remapLicense lic0) (S "GPL") = false :=
              Bool.not_eq_true _ ▸ hgpl
            have hnb : remapLicense lic0 ≠ S "BSD" := fun he => hbsd (Or.inl he)
            have hnm2 : remapLicense lic0 ≠ S "MIT" := fun he => hbsd (Or.inr he)
            rcases jur with _ | j
            · show strStarts _ (compute_about_url (remapLicense lic0) ver []) = true
              rw [about_licenses_nojur hnb hnm2 hgplf hlic_cc0 hlic_zero hlic_mark]
              refine strStarts_iff.mpr ⟨t, ?_⟩
              simp [List.append_assoc]
            · by_cases hjj : j = []
              · subst hjj
                show strStarts _ (compute_about_url (remapLicense lic0) ver []) = true
                rw [about_licenses_nojur hnb hnm2 hgplf hlic_cc0 hlic_zero hlic_mark]
                refine strStarts_iff.mpr ⟨t, ?_⟩
                simp [List.append_assoc]
              · obtain ⟨u, hu⟩ := hjt j rfl hjj
                rw [hu]
                show strStarts _ (compute_about_url (remapLicense lic0) ver j) = true
                rw [about_licenses_jur hnb hnm2 hgplf hlic_cc0 hlic_zero hlic_mark hjj]
                refine strStarts_iff.mpr ⟨u, ?_⟩
                simp [List.append_assoc]
    rcases rest with - | ⟨j, rest'⟩
    · rw [parse_nonzero_nil hs hz2] at hp
      injection hp with h
      subst h
      exact main none [] (fun j0 hj0 => Option.noConfusion hj0)
        (fun j0 hj0 => Option.noConfusion hj0)
    · cases hf : pyFloat? ver with
      | none =>
        rw [parse_nonzero_badfloat hs hz2 hf] at hp
        exact Option.noConfusion hp
      | some v =>
        cases hlt : pyFloatLtFour v with
        | true =>
          rw [parse_nonzero_lt hs hz2 hf hlt] at hp
          injection hp with h
          subst h
          refine main (some j) rest' ?_ ?_
          · intro j0 hj0
            injection hj0 with hj0e
            rw [← hj0e]
            exact hsj
          · intro j0 hj0
            injection hj0 with hj0e
            rw [← hj0e]
            exact hlcj
        | false =>
          rw [parse_nonzero_ge hs hz2 hf hlt] at hp
          injection hp with h
          subst h
          exact main none (j :: rest') (fun j0 hj0 => Option.noConfusion hj0)
            (fun j0 hj0 => Option.noConfusion hj0)

/-- Witness for C3 at `by-nc-nd_4.0.html`: the about URL is computed
from license, version and jurisdiction, contains no legalcode, and is a
prefix of the url. -/
theorem claim_c3_witness :
    (mkLicenseData (S "by-nc-nd") (S "licenses") (S "by-nc-nd") (S "4.0") none
      []).about_url
      = compute_about_url (remapLicense (S "by-nc-nd")) (S "4.0")
          (mkLicenseData (S "by-nc-nd") (S "licenses") (S "by-nc-nd") (S "4.0") none
            []).jurisdiction_code ∧
    hasSub (mkLicenseData (S "by-nc-nd") (S "licenses") (S "by-nc-nd") (S "4.0")
      none []).about_url (S "legalcode") = false ∧
    strStarts (mkLicenseData (S "by-nc-nd") (S "licenses") (S "by-nc-nd") (S "4.0")
      none []).url
      (mkLicenseData (S "by-nc-nd") (S "licenses") (S "by-nc-nd") (S "4.0") none
        []).about_url = true :=
  claim_c3_about_url_invariants (S "by-nc-nd_4.0.html") (S "by-nc-nd") (S "4.0") []
    (mkLicenseData (S "by-nc-nd") (S "licenses") (S "by-nc-nd") (S "4.0") none [])
    (by decide) (by decide) (by decide) (by decide) (by decide) (by decide)
    (by decide) (by decide) (by decide) (by decide) (by decide) (by decide)
    (by decide)
